import Mathlib

/-!
# LeagueProb — verification of the standings / tiebreaker / possibility engine

Shallow embedding of `leagueprobs` (match.py, teams.py, league.py,
possibility.py).  Python dictionaries are modelled as insertion-ordered
association lists (new keys are appended at the end, exactly as CPython
dicts behave); every operation below mirrors one Python function or
method, falsy-checks (`if not d.get(k)`) included.
-/

namespace LeagueProb

/-- `Match` from match.py.  `result` is `none` for an unplayed match
(JSON `null`); a present result is a pair of scores.  A present `(0, 0)`
is truthy in Python (non-empty tuple), matching `Option.isSome`. -/
structure Match where
  teams : String × String
  week : Int
  result : Option (Int × Int)
deriving DecidableEq, Repr

/-- `Match.winner`: no result means no winner; otherwise the first team
wins iff its score is strictly greater, else the second team wins (equal
scores also return the second team — Python's `else` branch). -/
def Match.winner (m : Match) : Option String :=
  match m.result with
  | none => none
  | some (a, b) => if a > b then some m.teams.1 else some m.teams.2

/-- `Match.loser`: mirror image of `Match.winner`. -/
def Match.loser (m : Match) : Option String :=
  match m.result with
  | none => none
  | some (a, b) => if a > b then some m.teams.2 else some m.teams.1

/-- `Team` from teams.py: a name and the list of this team's matches. -/
structure Team where
  name : String
  «matches» : List Match
deriving DecidableEq, Repr

/-- `Team.wins`: number of matches whose winner is this team. -/
def Team.wins (t : Team) : Nat :=
  (t.«matches».filter (fun m => m.winner = some t.name)).length

/-- `Team.losses`: matches with a winner that is not this team
(`match.winner and match.winner != self.name`). -/
def Team.losses (t : Team) : Nat :=
  (t.«matches».filter (fun m => m.winner.isSome ∧ m.winner ≠ some t.name)).length

/-- `Team.record` = (wins, losses). -/
def Team.record (t : Team) : Nat × Nat := (t.wins, t.losses)

/-- Tuple membership `name in match.teams`. -/
def inMatchTeams (name : String) (m : Match) : Prop :=
  name = m.teams.1 ∨ name = m.teams.2

instance (name : String) (m : Match) : Decidable (inMatchTeams name m) := by
  unfold inMatchTeams; infer_instance

/-- `Team.head_to_head_wins`: for each opponent, count this team's wins
among the matches listing both names. -/
def Team.head_to_head_wins (t : Team) (others : List Team) : Nat :=
  others.foldl
    (fun w opp =>
      w + ((t.«matches».filter
              (fun m => inMatchTeams t.name m ∧ inMatchTeams opp.name m)).filter
              (fun m => m.winner = some t.name)).length)
    0

/-- `Team.wins_in_second_half`: wins among matches with `week > 4` that
have a winner (the hard-coded split boundary of teams.py). -/
def Team.wins_in_second_half (t : Team) : Nat :=
  ((t.«matches».filter (fun m => m.week > 4 ∧ m.winner.isSome)).filter
      (fun m => m.winner = some t.name)).length

/-! ## Standings: the `Dict[int, List[str]]` of league.py -/

/-- A standings dictionary: rank → bucket of team names, in key-insertion
order (re-sorted by rank after every mutation, as the source does). -/
abbrev Standings := List (Nat × List String)

/-- `standings.get(k)` (bucket lookup by rank key). -/
def bucketFor (s : Standings) (k : Nat) : Option (List String) :=
  (s.find? (fun b => b.1 = k)).map (fun b => b.2)

/-- All team names appearing in a standings (or grouping) dictionary, in
bucket order. -/
def namesOf (s : List (α × List String)) : List String := s.flatMap (fun b => b.2)

/-- The rank of the (first) bucket containing a team. -/
def rankOf (s : Standings) (t : String) : Option Nat :=
  (s.find? (fun b => t ∈ b.2)).map (fun b => b.1)

/-- `League._remove_team_from_standings`: scan buckets in order; in the
first bucket containing the team erase its first occurrence, delete the
bucket if it became empty, and stop. -/
def remove_team_from_standings (team : String) : Standings → Standings
  | [] => []
  | (r, ts) :: rest =>
      if team ∈ ts then
        let ts' := ts.erase team
        if ts' = [] then rest else (r, ts') :: rest
      else (r, ts) :: remove_team_from_standings team rest

/-- `standings[k].append(t)` on an existing key, or `standings[k] = [t]`
appended at the end for a fresh key (CPython dict insertion order). -/
def appendToBucket : Standings → Nat → String → Standings
  | [], k, t => [(k, [t])]
  | (r, ts) :: rest, k, t =>
      if r = k then (r, ts ++ [t]) :: rest
      else (r, ts) :: appendToBucket rest k t

/-- `standings[k] = []`: reset an existing key in place, or append a
fresh empty bucket.  Only ever invoked behind the source's
`if not standings.get(k)` falsy guard. -/
def resetBucket : Standings → Nat → Standings
  | [], k => [(k, [])]
  | (r, ts) :: rest, k =>
      if r = k then (r, []) :: rest
      else (r, ts) :: resetBucket rest k

/-- Stable insertion by ascending rank key (`dict(sorted(items))`). -/
def insertByRank (b : Nat × List String) : Standings → Standings
  | [] => [b]
  | c :: rest => if b.1 < c.1 then b :: c :: rest else c :: insertByRank b rest

/-- `dict(sorted(self.standings.items()))`. -/
def sortByRank (s : Standings) : Standings :=
  s.foldl (fun acc b => insertByRank b acc) []

/-- `League._set_standing_for_team`: remove the team from wherever it
is, create the target bucket if absent, append the team, re-sort by
rank. -/
def set_standing_for_team (teamName : String) (standing : Nat) (s : Standings) :
    Standings :=
  sortByRank (appendToBucket (remove_team_from_standings teamName s) standing teamName)

/-! ## `teams_by_records` and `make_standings` -/

/-- One step of the grouping loop of `teams_by_records`: falsy-check the
key (absent or empty list), create it if needed, append the name. -/
def addToGroups [DecidableEq α] :
    List (α × List String) → α → String → List (α × List String)
  | [], key, n => [(key, [n])]
  | (k, ns) :: rest, key, n =>
      if k = key then (k, ns ++ [n]) :: rest
      else (k, ns) :: addToGroups rest key n

/-- `teams_by_records`: group a table's names by identical value (record,
or win count), keys in first-appearance order, names in table order. -/
def teams_by_records [DecidableEq α] (tbl : List (String × α)) :
    List (α × List String) :=
  tbl.foldl (fun gs p => addToGroups gs p.2 p.1) []

/-- One group of `League.make_standings`'s loop: fix `insert_rank`,
falsy-create the bucket, append every team of the group bumping
`next_rank` once per team. -/
def msGroup (acc : Standings × Nat) (g : (Nat × Nat) × List String) :
    Standings × Nat :=
  let s1 := if (bucketFor acc.1 acc.2).getD [] = [] then resetBucket acc.1 acc.2
            else acc.1
  (g.2.foldl (fun s t => appendToBucket s acc.2 t) s1, acc.2 + g.2.length)

/-- `League.make_standings` applied to a table (name → record list). -/
def make_standings (tbl : List (String × (Nat × Nat))) : Standings :=
  ((teams_by_records tbl).foldl msGroup ([], 1)).1

/-! ## `League.table` -/

/-- The sort key `(wins, -losses)` of `League.table`. -/
def recordKey (r : Nat × Nat) : Int × Int := ((r.1 : Int), -(r.2 : Int))

/-- Strict lexicographic greater-than on the sort key. -/
def keyGt (a b : Int × Int) : Bool :=
  a.1 > b.1 ∨ (a.1 = b.1 ∧ a.2 > b.2)

/-- Stable descending insertion for the table sort: an element passes
every earlier element with a key not strictly smaller, so equal keys
keep their original order (Python's `sorted` is stable). -/
def insertTableDesc (x : String × (Nat × Nat)) :
    List (String × (Nat × Nat)) → List (String × (Nat × Nat))
  | [] => [x]
  | y :: ys =>
      if keyGt (recordKey x.2) (recordKey y.2) then x :: y :: ys
      else y :: insertTableDesc x ys

/-- `sorted(table.items(), key=(wins, -losses), reverse=True)`. -/
def sortTableDesc (l : List (String × (Nat × Nat))) :
    List (String × (Nat × Nat)) :=
  l.foldl (fun acc x => insertTableDesc x acc) []

/-- `League.table`: every team's record, sorted by descending wins then
ascending losses. -/
def table (teams : List Team) : List (String × (Nat × Nat)) :=
  sortTableDesc (teams.map (fun t => (t.name, t.record)))

/-- The standings computed at `League.__init__`. -/
def leagueStandings (teams : List Team) : Standings :=
  make_standings (table teams)

/-! ## `place_teams_in_rankings` (with its source indentation intact) -/

/-- Stable descending insertion by win count for
`sorted(items, reverse=True)` on distinct integer keys. -/
def insertGroupDesc (g : Nat × List String) :
    List (Nat × List String) → List (Nat × List String)
  | [] => [g]
  | c :: rest => if g.1 > c.1 then g :: c :: rest else c :: insertGroupDesc g rest

/-- Sort win groups by descending win count. -/
def sortGroupsDesc (gs : List (Nat × List String)) : List (Nat × List String) :=
  gs.foldl (fun acc g => insertGroupDesc g acc) []

/-- `place_teams_in_rankings`, exactly as written in league.py: `rank`
is fixed when a win-group starts, and the bucket creation, the append
AND the `next_rank += 1` all sit inside the `if not ranking_dict.get(rank)`
guard — so once the bucket at `rank` is non-empty the remaining teams of
the group are silently skipped. -/
def place_teams_in_rankings (teamsToPlaceByWins : List (Nat × List String))
    (next_rank : Nat) : List (Nat × List String) :=
  ((sortGroupsDesc teamsToPlaceByWins).foldl
    (fun acc g =>
      let rank := acc.2
      g.2.foldl
        (fun acc2 team =>
          if (bucketFor acc2.1 rank).getD [] = [] then
            (appendToBucket (resetBucket acc2.1 rank) rank team, acc2.2 + 1)
          else acc2)
        acc)
    ([], next_rank)).1

/-! ## The tiebreaker passes -/

/-- `self.teams[name]` — the lookup is total in Lean; in the program the
key is always present (a missing key would raise), and every use below
is under the standings-partition invariant which guarantees presence. -/
def lookupTeam (teams : List Team) (n : String) : Team :=
  (teams.find? (fun t => t.name = n)).getD ⟨n, []⟩

/-- Apply one placing dictionary to the standings: skip placing 0,
otherwise remove the team and reinsert it at `rank + placing` (the
source calls `_remove_team_from_standings` and then
`_set_standing_for_team`, which removes again — a no-op). -/
def applyPlacings (rank : Nat) (placings : List (Nat × List String))
    (s : Standings) : Standings :=
  placings.foldl
    (fun cur pr =>
      pr.2.foldl
        (fun cur2 tn =>
          if pr.1 = 0 then cur2
          else set_standing_for_team tn (rank + pr.1)
                 (remove_team_from_standings tn cur2))
        cur)
    s

/-- The body of `_solve_ties_through_head_to_heads` for one snapshot
bucket: if several teams are tied, rank them by head-to-head wins among
the bucket and reinsert the non-zero placings. -/
def solveBucketH2h (teams : List Team) (rank : Nat) (bucket : List String)
    (s : Standings) : Standings :=
  if bucket.length > 1 then
    let teamsH2hWins : List (String × Nat) := bucket.map
      (fun tn => (tn, (lookupTeam teams tn).head_to_head_wins
                        ((bucket.filter (fun o => o ≠ tn)).map (lookupTeam teams))))
    applyPlacings rank (place_teams_in_rankings (teams_by_records teamsH2hWins) 0) s
  else s

/-- `League._solve_ties_through_head_to_heads`: iterate a deep copy
(snapshot) of the standings, mutating the live standings. -/
def solve_ties_through_head_to_heads (teams : List Team) (s : Standings) :
    Standings :=
  s.foldl (fun cur b => solveBucketH2h teams b.1 b.2 cur) s

/-- The body of `_solve_ties_through_wins_in_second_half` for one bucket
(the unused `other_teams` computation of the source is dropped — it has
no effect). -/
def solveBucketSecondHalf (teams : List Team) (rank : Nat) (bucket : List String)
    (s : Standings) : Standings :=
  if bucket.length > 1 then
    let tiedTeams : List (String × Nat) := bucket.map
      (fun tn => (tn, (lookupTeam teams tn).wins_in_second_half))
    applyPlacings rank (place_teams_in_rankings (teams_by_records tiedTeams) 0) s
  else s

/-- `League._solve_ties_through_wins_in_second_half`. -/
def solve_ties_through_wins_in_second_half (teams : List Team) (s : Standings) :
    Standings :=
  s.foldl (fun cur b => solveBucketSecondHalf teams b.1 b.2 cur) s

/-- `League.make_tiebreaker`: head-to-heads, then second-half wins. -/
def make_tiebreaker (teams : List Team) (s : Standings) : Standings :=
  solve_ties_through_wins_in_second_half teams
    (solve_ties_through_head_to_heads teams s)

/-! ## `get_league_from_matches` -/

/-- Add one match to a named team, creating the team (dict append) if it
does not exist yet. -/
def addMatchForTeam : List Team → String → Match → List Team
  | [], n, m => [⟨n, [m]⟩]
  | t :: rest, n, m =>
      if t.name = n then ⟨t.name, t.«matches» ++ [m]⟩ :: rest
      else t :: addMatchForTeam rest n m

/-- `get_league_from_matches`: build the team dictionary by scanning the
match list; each match is handed to both of its teams in order. -/
def get_league_from_matches (ms : List Match) : List Team :=
  ms.foldl (fun acc m => addMatchForTeam (addMatchForTeam acc m.teams.1 m) m.teams.2 m) []

/-! ## The possibility engine (possibility.py) -/

/-- `[match for match in self.matches if match.result]`. -/
def finishedMatches (ms : List Match) : List Match :=
  ms.filter (fun m => m.result.isSome)

/-- `[match for match in self.matches if not match.result]`. -/
def upcomingMatches (ms : List Match) : List Match :=
  ms.filter (fun m => ¬ m.result.isSome)

/-- `itertools.product([0, 1], repeat=n)`: all outcome vectors, leftmost
position varying slowest. -/
def allPossibilities : Nat → List (List Nat)
  | 0 => [[]]
  | n + 1 =>
      ((allPossibilities n).map (fun p => 0 :: p)) ++
        ((allPossibilities n).map (fun p => 1 :: p))

/-- `PossibilityHandler._set_upcoming_matches_outcomes`: position `i` of
the vector decides match `i`: `(1, 0)` on a 1, `(0, 1)` otherwise. -/
def set_upcoming_matches_outcomes (ms : List Match) (possibility : List Nat) :
    List Match :=
  ms.zipWith (fun m p => { m with result := some (if p = 1 then (1, 0) else (0, 1)) })
    possibility

/-- The team dictionary of the hypothetical league one scenario builds
(`finished + assigned upcoming` handed to `get_league_from_matches`). -/
def scenarioTeams (ms : List Match) (possibility : List Nat) : List Team :=
  get_league_from_matches
    (finishedMatches ms ++ set_upcoming_matches_outcomes (upcomingMatches ms) possibility)

/-- The standings one scenario produces: construct the league, then
`make_tiebreaker` (the body of `PossibilityHandler.get_possibilities`). -/
def scenarioStandings (ms : List Match) (possibility : List Nat) : Standings :=
  make_tiebreaker (scenarioTeams ms possibility)
    (leagueStandings (scenarioTeams ms possibility))

/-- Per-team ranking counters: `Dict[int, int]` of possibility.py. -/
abbrev RankCounts := List (Nat × Nat)

/-- The aggregate `Dict[str, Dict[int, int]]`. -/
abbrev Agg := List (String × RankCounts)

/-- `agg.get(team)`. -/
def lookupAgg (agg : Agg) (tn : String) : Option RankCounts :=
  (agg.find? (fun p => p.1 = tn)).map (fun p => p.2)

/-- `if not d[team].get(standing): d[team][standing] = 1 else += 1`
(a stored 0 is falsy and is reset to 1, like the source). -/
def bumpStanding : RankCounts → Nat → RankCounts
  | [], std => [(std, 1)]
  | (k, v) :: rest, std =>
      if k = std then (k, if v = 0 then 1 else v + 1) :: rest
      else (k, v) :: bumpStanding rest std

/-- One `cumulated_results[team][standing]` update of
`PossibilityHandler._cumulate_outcome` (team entry falsy-created). -/
def addTeamStanding : Agg → String → Nat → Agg
  | [], tn, std => [(tn, [(std, 1)])]
  | (n, rc) :: rest, tn, std =>
      if n = tn then (n, bumpStanding rc std) :: rest
      else (n, rc) :: addTeamStanding rest tn std

/-- `PossibilityHandler._cumulate_outcome`: turn one scenario's standings
into a per-team {rank: count} dictionary (the value put on the queue). -/
def cumulate_outcome (standings : Standings) : Agg :=
  standings.foldl
    (fun agg b => b.2.foldl (fun agg2 tn => addTeamStanding agg2 tn b.1) agg) []

/-- `self.cumulated_outcomes[team] = {}` (update or dict-append). -/
def setTeamEmpty : Agg → String → Agg
  | [], tn => [(tn, [])]
  | (n, rc) :: rest, tn =>
      if n = tn then (n, []) :: rest else (n, rc) :: setTeamEmpty rest tn

/-- `if not d[team].get(ranking): d[team][ranking] = 0` then `+= 1`:
the net effect is always +1 at that ranking. -/
def bumpRanking : RankCounts → Nat → RankCounts
  | [], rk => [(rk, 1)]
  | (k, v) :: rest, rk =>
      if k = rk then (k, v + 1) :: rest else (k, v) :: bumpRanking rest rk

/-- One ranking update of `_cumulate_results` on the aggregate. -/
def bumpTeamRanking : Agg → String → Nat → Agg
  | [], tn, rk => [(tn, [(rk, 1)])]
  | (n, rc) :: rest, tn, rk =>
      if n = tn then (n, bumpRanking rc rk) :: rest
      else (n, rc) :: bumpTeamRanking rest tn rk

/-- The body of `_cumulate_results`' while-loop for one dequeued result:
falsy-create the team entry, then add 1 per (ranking, amount) item — the
source adds `1`, not `amount` (its own `TODO: SHOULD BE AMOUNT???`). -/
def cumulateResultsStep (agg : Agg) (result : Agg) : Agg :=
  result.foldl
    (fun acc p =>
      let acc1 := if (lookupAgg acc p.1).getD [] = [] then setTeamEmpty acc p.1 else acc
      p.2.foldl (fun acc2 pr => bumpTeamRanking acc2 p.1 pr.1) acc1)
    agg

/-- `PossibilityHandler._cumulate_results`: after the 10-second sleep the
loop dequeues results one by one and `break`s the first time
`queue.empty()` is true — so it consumes exactly the results present in
the queue when draining catches up, however many that is. -/
def cumulate_results (queueContents : List Agg) : Agg :=
  queueContents.foldl cumulateResultsStep []

/-- The per-scenario results the workers put on the queue, one per
outcome vector. -/
def scenarioResults (ms : List Match) : List Agg :=
  (allPossibilities (upcomingMatches ms).length).map
    (fun p => cumulate_outcome (scenarioStandings ms p))

/-- The whole engine when every one of the `2^U` scenario results is
delivered before the drain loop observes an empty queue. -/
def possibilityAggregate (ms : List Match) : Agg :=
  cumulate_results (scenarioResults ms)

/-- Sum of a team's aggregated counts over all ranks. -/
def sumCountsFor (agg : Agg) (tn : String) : Nat :=
  (((lookupAgg agg tn).getD []).map (fun p => p.2)).sum

/-! ## Ingestion (`get_matches_from_json`, match.py) -/

/-- One raw JSON match object: `none` in an outer `Option` means the key
is absent from the object (Python raises `KeyError`); the values are
stored untouched — `teams` and `result` arrive as arbitrary-length JSON
arrays and `week` as an arbitrary integer. -/
structure RawMatch where
  teams : Option (List String)
  week : Option Int
  result : Option (Option (List Int))
deriving DecidableEq, Repr

/-- The object `Match.__init__` stores: the raw field values, unvalidated. -/
structure MatchData where
  teams : List String
  week : Int
  result : Option (List Int)
deriving DecidableEq, Repr

/-- `get_matches_from_json`: build a `Match` from each record's three
keys, in order, stopping at the first record with a missing key (the
comprehension raises `KeyError` there).  No value is validated. -/
def get_matches_from_json : List RawMatch → Except String (List MatchData)
  | [] => Except.ok []
  | r :: rest =>
      match r.teams, r.week, r.result with
      | some ts, some w, some res =>
          (get_matches_from_json rest).map (fun l => ⟨ts, w, res⟩ :: l)
      | none, _, _ => Except.error "KeyError: teams"
      | some _, none, _ => Except.error "KeyError: week"
      | some _, some _, none => Except.error "KeyError: result"

/-! ## Concrete leagues used as witnesses and counterexamples -/

/-- A played match. -/
def mkMatch (a b : String) (w : Int) (r : Int × Int) : Match := ⟨(a, b), w, some r⟩

/-- Five teams: A, B and C all finish 2–2 (A beat B and C; B and C split
their two meetings; D and E each beat A once and lost once), D and E
finish 1–1.  The initial standings bucket A, B, C together at rank 1
with head-to-head wins A=2, B=1, C=1. -/
def exMs : List Match :=
  [ mkMatch "A" "B" 1 (1, 0), mkMatch "A" "C" 1 (1, 0), mkMatch "B" "C" 1 (1, 0),
    mkMatch "C" "B" 2 (1, 0), mkMatch "D" "A" 2 (1, 0), mkMatch "E" "A" 2 (1, 0),
    mkMatch "B" "D" 2 (1, 0), mkMatch "C" "E" 2 (1, 0) ]

/-- The team dictionary of that league. -/
def exTeams : List Team := get_league_from_matches exMs

/-- Four teams: X and Y are tied 1–1 in their own rank bucket and X won
their single head-to-head meeting. -/
def exMs2 : List Match :=
  [ mkMatch "X" "Y" 1 (1, 0), mkMatch "Z" "X" 1 (1, 0), mkMatch "Y" "W" 1 (1, 0) ]

/-- The team dictionary of that league. -/
def exTeams2 : List Team := get_league_from_matches exMs2

/-- Two teams, one finished match (A beat B) and one still unplayed:
the scenario space has size 2. -/
def tinyMs : List Match := [⟨("A", "B"), 1, some (1, 0)⟩, ⟨("A", "B"), 2, none⟩]

/-! ## Spec-side standings numbering (for the refinement claim C5) -/

/-- Written from the spec's words: one bucket per record group, the
first bucket at rank 1, each later bucket's rank equal to the previous
rank plus the previous bucket's size (ranks 1, 1, 3 — never 1, 1, 2). -/
def msSpecRanks : Nat → List ((Nat × Nat) × List String) → Standings
  | _, [] => []
  | next, g :: rest => (next, g.2) :: msSpecRanks (next + g.2.length) rest

/-! ## Auxiliary observation functions for the proofs -/

/-- What `place_teams_in_rankings` actually computes on win groups that
are all non-empty (as `teams_by_records` always yields): one placing key
per group, counting up from the start rank, holding only the group's
first team — the indentation of the source skips every other team. -/
def ptirAux : Nat → List (Nat × List String) → List (Nat × List String)
  | _, [] => []
  | n, g :: rest => (n, g.2.take 1) :: ptirAux (n + 1) rest

/-- The (team, rank) pairs a standings dictionary feeds, in order, into
`_cumulate_outcome`. -/
def pairsOf (s : Standings) : List (String × Nat) :=
  s.flatMap (fun b => b.2.map (fun t => (t, b.1)))

/-- Number of distinct rank entries stored for a team, summed over every
aggregate item carrying that team's name. -/
def numEntries (agg : Agg) (tn : String) : Nat :=
  ((agg.filter (fun p => p.1 = tn)).map (fun p => p.2.length)).sum

/-- Total of all counts stored for a team, summed over every aggregate
item carrying that team's name. -/
def theTotal (agg : Agg) (tn : String) : Nat :=
  ((agg.filter (fun p => p.1 = tn)).map
    (fun p => (p.2.map (fun q => q.2)).sum)).sum

/-! # Theorems -/

open List

/-! ## Helper lemmas about the tiebreaker passes on tie-free standings -/

lemma solveBucketH2h_of_short (teams : List Team) (rank : Nat)
    (bucket : List String) (s : Standings) (h : ¬ bucket.length > 1) :
    solveBucketH2h teams rank bucket s = s := by
  simp [solveBucketH2h, h]

lemma solveBucketSecondHalf_of_short (teams : List Team) (rank : Nat)
    (bucket : List String) (s : Standings) (h : ¬ bucket.length > 1) :
    solveBucketSecondHalf teams rank bucket s = s := by
  simp [solveBucketSecondHalf, h]

lemma foldl_solveBucketH2h_of_short (teams : List Team)
    (l : List (Nat × List String)) (s : Standings)
    (h : ∀ b ∈ l, ¬ b.2.length > 1) :
    l.foldl (fun cur b => solveBucketH2h teams b.1 b.2 cur) s = s := by
  induction l generalizing s with
  | nil => rfl
  | cons b rest ih =>
      rw [List.foldl_cons, solveBucketH2h_of_short teams b.1 b.2 s (h b (by simp))]
      exact ih s (fun c hc => h c (by simp [hc]))

lemma foldl_solveBucketSecondHalf_of_short (teams : List Team)
    (l : List (Nat × List String)) (s : Standings)
    (h : ∀ b ∈ l, ¬ b.2.length > 1) :
    l.foldl (fun cur b => solveBucketSecondHalf teams b.1 b.2 cur) s = s := by
  induction l generalizing s with
  | nil => rfl
  | cons b rest ih =>
      rw [List.foldl_cons, solveBucketSecondHalf_of_short teams b.1 b.2 s (h b (by simp))]
      exact ih s (fun c hc => h c (by simp [hc]))

/-! ## Partition machinery: how each mutation moves the name multiset -/

lemma namesOf_nil : namesOf ([] : List (α × List String)) = [] := rfl

lemma namesOf_cons (b : α × List String) (s : List (α × List String)) :
    namesOf (b :: s) = b.2 ++ namesOf s := rfl

/-- Removing a team erases exactly its first occurrence from the flat
name list. -/
lemma namesOf_remove (t : String) (s : Standings) :
    namesOf (remove_team_from_standings t s) = (namesOf s).erase t := by
  induction s with
  | nil => rfl
  | cons b rest ih =>
      obtain ⟨r, ts⟩ := b
      rw [remove_team_from_standings]
      by_cases ht : t ∈ ts
      · rw [if_pos ht, namesOf_cons, List.erase_append_left _ ht]
        by_cases he : ts.erase t = []
        · simp [he]
        · rw [if_neg he, namesOf_cons]
      · rw [if_neg ht, namesOf_cons, namesOf_cons, ih,
          List.erase_append_right _ ht]

/-- Appending a team to a bucket adds it to the name multiset. -/
lemma namesOf_appendToBucket (s : Standings) (k : Nat) (t : String) :
    namesOf (appendToBucket s k t) ~ t :: namesOf s := by
  induction s with
  | nil => simp [appendToBucket, namesOf]
  | cons b rest ih =>
      obtain ⟨r, ts⟩ := b
      rw [appendToBucket]
      by_cases hr : r = k
      · rw [if_pos hr, namesOf_cons, namesOf_cons, List.append_assoc]
        exact List.perm_middle
      · rw [if_neg hr, namesOf_cons, namesOf_cons]
        exact ((ih).append_left ts).trans List.perm_middle

lemma insertByRank_perm (b : Nat × List String) (s : Standings) :
    insertByRank b s ~ b :: s := by
  induction s with
  | nil => rfl
  | cons c rest ih =>
      rw [insertByRank]
      by_cases h : b.1 < c.1
      · rw [if_pos h]
      · rw [if_neg h]
        exact (ih.cons c).trans (List.Perm.swap b c rest)

lemma foldl_insertByRank_perm (l : List (Nat × List String)) (acc : Standings) :
    l.foldl (fun a c => insertByRank c a) acc ~ acc ++ l := by
  induction l generalizing acc with
  | nil => simp
  | cons b rest ih =>
      rw [List.foldl_cons]
      exact (ih (insertByRank b acc)).trans
        ((((insertByRank_perm b acc).append_right rest).trans
          List.perm_middle.symm).trans (by simp))

lemma sortByRank_perm (s : Standings) : sortByRank s ~ s := by
  simpa using foldl_insertByRank_perm s []

/-- `namesOf` is invariant (as a multiset) under bucket permutation. -/
lemma namesOf_perm_of_perm {s₁ s₂ : List (α × List String)} (h : s₁ ~ s₂) :
    namesOf s₁ ~ namesOf s₂ := by
  have h2 : (s₁.map (fun b => b.2)).flatten ~ (s₂.map (fun b => b.2)).flatten :=
    (h.map (fun b => b.2)).flatten
  simpa [namesOf, List.flatMap_def] using h2

/-- The mutation primitive `_set_standing_for_team` replaces the first
occurrence of the team by an occurrence in the target bucket. -/
lemma namesOf_set (t : String) (k : Nat) (s : Standings) :
    namesOf (set_standing_for_team t k s) ~ t :: (namesOf s).erase t := by
  unfold set_standing_for_team
  exact (namesOf_perm_of_perm (sortByRank_perm _)).trans
    ((namesOf_appendToBucket _ _ _).trans (by rw [namesOf_remove]))

/-- If the team is present, `_set_standing_for_team` preserves the name
multiset. -/
lemma namesOf_set_of_mem {t : String} {s : Standings} (k : Nat)
    (h : t ∈ namesOf s) :
    namesOf (set_standing_for_team t k s) ~ namesOf s :=
  (namesOf_set t k s).trans (List.perm_cons_erase h).symm

/-! ## The initial standings are a partition of the team names -/

lemma namesOf_addToGroups [DecidableEq α] (gs : List (α × List String))
    (key : α) (n : String) :
    namesOf (addToGroups gs key n) ~ n :: namesOf gs := by
  induction gs with
  | nil => simp [addToGroups, namesOf]
  | cons b rest ih =>
      obtain ⟨k, ns⟩ := b
      rw [addToGroups]
      by_cases hk : k = key
      · rw [if_pos hk, namesOf_cons, namesOf_cons, List.append_assoc]
        exact List.perm_middle
      · rw [if_neg hk, namesOf_cons, namesOf_cons]
        exact ((ih).append_left ns).trans List.perm_middle

lemma namesOf_teams_by_records_aux [DecidableEq α] (tbl : List (String × α))
    (gs : List (α × List String)) :
    namesOf (tbl.foldl (fun gs p => addToGroups gs p.2 p.1) gs) ~
      namesOf gs ++ tbl.map Prod.fst := by
  induction tbl generalizing gs with
  | nil => simp
  | cons p rest ih =>
      rw [List.foldl_cons]
      exact (ih _).trans
        (((namesOf_addToGroups gs p.2 p.1).append_right _).trans
          List.perm_middle.symm)

/-- Grouping a table by records keeps exactly the table's names. -/
lemma namesOf_teams_by_records [DecidableEq α] (tbl : List (String × α)) :
    namesOf (teams_by_records tbl) ~ tbl.map Prod.fst := by
  simpa [teams_by_records] using namesOf_teams_by_records_aux tbl []

/-- The guarded `standings[k] = []` never changes the name multiset: it
is only executed when the bucket at `k` is absent or empty. -/
lemma namesOf_resetBucket (s : Standings) (k : Nat)
    (h : (bucketFor s k).getD [] = []) :
    namesOf (resetBucket s k) = namesOf s := by
  induction s with
  | nil => rfl
  | cons b rest ih =>
      obtain ⟨r, ts⟩ := b
      rw [resetBucket]
      by_cases hr : r = k
      · have : ts = [] := by
          simpa [bucketFor, List.find?, hr] using h
        rw [if_pos hr, this]
      · rw [if_neg hr, namesOf_cons, namesOf_cons,
          ih (by simpa [bucketFor, List.find?, hr] using h)]

lemma namesOf_appendFold (l : List String) (s : Standings) (k : Nat) :
    namesOf (l.foldl (fun s t => appendToBucket s k t) s) ~ l ++ namesOf s := by
  induction l generalizing s with
  | nil => simp
  | cons t rest ih =>
      rw [List.foldl_cons]
      exact (ih _).trans
        (((namesOf_appendToBucket s k t).append_left rest).trans
          List.perm_middle)

lemma namesOf_msGroup_fold (gs : List ((Nat × Nat) × List String))
    (acc : Standings × Nat) :
    namesOf (gs.foldl msGroup acc).1 ~ namesOf acc.1 ++ namesOf gs := by
  induction gs generalizing acc with
  | nil => simp [namesOf]
  | cons g rest ih =>
      rw [List.foldl_cons]
      refine (ih _).trans ?_
      have h1 : namesOf (msGroup acc g).1 ~ g.2 ++ namesOf acc.1 := by
        unfold msGroup
        by_cases hg : (bucketFor acc.1 acc.2).getD [] = []
        · rw [if_pos hg]
          exact (namesOf_appendFold _ _ _).trans
            (by rw [namesOf_resetBucket acc.1 acc.2 hg])
        · rw [if_neg hg]
          exact namesOf_appendFold _ _ _
      refine ((h1.append_right _).trans ?_)
      rw [namesOf_cons, List.append_assoc]
      exact List.perm_append_comm_assoc g.2 (namesOf acc.1) (namesOf rest)

/-- `make_standings` keeps exactly the table's names. -/
lemma namesOf_make_standings (tbl : List (String × (Nat × Nat))) :
    namesOf (make_standings tbl) ~ tbl.map Prod.fst := by
  unfold make_standings
  exact (namesOf_msGroup_fold _ _).trans
    (by simpa using namesOf_teams_by_records tbl)

lemma insertTableDesc_perm (x : String × (Nat × Nat))
    (l : List (String × (Nat × Nat))) : insertTableDesc x l ~ x :: l := by
  induction l with
  | nil => rfl
  | cons y ys ih =>
      rw [insertTableDesc]
      by_cases h : keyGt (recordKey x.2) (recordKey y.2)
      · rw [if_pos h]
      · rw [if_neg h]
        exact (ih.cons y).trans (List.Perm.swap x y ys)

lemma foldl_insertTableDesc_perm (l acc : List (String × (Nat × Nat))) :
    l.foldl (fun a x => insertTableDesc x a) acc ~ acc ++ l := by
  induction l generalizing acc with
  | nil => simp
  | cons x rest ih =>
      rw [List.foldl_cons]
      exact (ih _).trans
        ((((insertTableDesc_perm x acc).append_right rest).trans
          List.perm_middle.symm).trans (by simp))

lemma sortTableDesc_perm (l : List (String × (Nat × Nat))) :
    sortTableDesc l ~ l := by
  simpa using foldl_insertTableDesc_perm l []

/-- The table lists exactly the league's team names. -/
lemma table_names_perm (teams : List Team) :
    (table teams).map Prod.fst ~ teams.map Team.name := by
  refine ((sortTableDesc_perm _).map Prod.fst).trans ?_
  rw [List.map_map]
  exact List.Perm.refl _

/-- The standings built at `League.__init__` partition the team names. -/
lemma namesOf_leagueStandings (teams : List Team) :
    namesOf (leagueStandings teams) ~ teams.map Team.name :=
  (namesOf_make_standings (table teams)).trans (table_names_perm teams)

/-! ## The tiebreaker passes preserve the name multiset -/

/-- One move of the apply-loop (`_remove_team_from_standings` followed
by `_set_standing_for_team`) preserves the name multiset when the names
are duplicate-free and the moved team is among them. -/
lemma namesOf_move_step {names : List String} (hnd : names.Nodup)
    {cur : Standings} (h : namesOf cur ~ names) (t : String) (k : Nat)
    (ht : t ∈ names) :
    namesOf (set_standing_for_team t k (remove_team_from_standings t cur)) ~
      names := by
  have htm : t ∈ namesOf cur := h.mem_iff.mpr ht
  have h1 := namesOf_set t k (remove_team_from_standings t cur)
  rw [namesOf_remove] at h1
  have hcnd : (namesOf cur).Nodup := (h.nodup_iff).mpr hnd
  rw [List.erase_of_not_mem (hcnd.not_mem_erase)] at h1
  exact (h1.trans (List.perm_cons_erase htm).symm).trans h

lemma namesOf_applyPlacings {names : List String} (hnd : names.Nodup)
    (rank : Nat) (placings : List (Nat × List String)) (s : Standings)
    (h : namesOf s ~ names)
    (hsub : ∀ pr ∈ placings, ∀ t ∈ pr.2, t ∈ names) :
    namesOf (applyPlacings rank placings s) ~ names := by
  unfold applyPlacings
  induction placings generalizing s with
  | nil => exact h
  | cons pr rest ih =>
      rw [List.foldl_cons]
      refine ih _ ?_ (fun q hq u hu => hsub q (List.mem_cons_of_mem pr hq) u hu)
      have hin : ∀ u ∈ pr.2, u ∈ names := fun u hu => hsub pr (by simp) u hu
      have inner : ∀ (ts : List String) (s : Standings), namesOf s ~ names →
          (∀ u ∈ ts, u ∈ names) →
          namesOf (ts.foldl
            (fun cur2 tn =>
              if pr.1 = 0 then cur2
              else set_standing_for_team tn (rank + pr.1)
                (remove_team_from_standings tn cur2)) s) ~ names := by
        intro ts
        induction ts with
        | nil => exact fun s hs _ => hs
        | cons t ts' ih2 =>
            intro s hs hin'
            simp only [List.foldl_cons]
            by_cases hp : pr.1 = 0
            · rw [if_pos hp]
              exact ih2 _ hs (fun u hu => hin' u (List.mem_cons_of_mem t hu))
            · rw [if_neg hp]
              exact ih2 _
                (namesOf_move_step hnd hs t _ (hin' t (List.mem_cons_self t ts')))
                (fun u hu => hin' u (List.mem_cons_of_mem t hu))
      exact inner pr.2 s h hin

/-- Placed teams come from the input win groups. -/
lemma mem_namesOf_place_teams_in_rankings
    {gs : List (Nat × List String)} {n0 : Nat} {t : String}
    (h : t ∈ namesOf (place_teams_in_rankings gs n0)) : t ∈ namesOf gs := by
  have hsorted : ∀ (l : List (Nat × List String)) (acc : Standings × Nat),
      t ∈ namesOf (l.foldl
        (fun acc g =>
          let rank := acc.2
          g.2.foldl
            (fun acc2 team =>
              if (bucketFor acc2.1 rank).getD [] = [] then
                (appendToBucket (resetBucket acc2.1 rank) rank team, acc2.2 + 1)
              else acc2)
            acc)
        acc).1 → t ∈ namesOf acc.1 ∨ t ∈ namesOf l := by
    intro l
    induction l with
    | nil => exact fun acc h => Or.inl h
    | cons g rest ih =>
        intro acc hmem
        rw [List.foldl_cons] at hmem
        rcases ih _ hmem with hacc | hrest
        · -- peel the inner fold over g.2
          clear hmem ih
          have : ∀ (ts : List String) (acc2 : Standings × Nat),
              t ∈ namesOf (ts.foldl
                (fun acc2 team =>
                  if (bucketFor acc2.1 acc.2).getD [] = [] then
                    (appendToBucket (resetBucket acc2.1 acc.2) acc.2 team, acc2.2 + 1)
                  else acc2)
                acc2).1 → t ∈ namesOf acc2.1 ∨ t ∈ ts := by
            intro ts
            induction ts with
            | nil => exact fun acc2 h => Or.inl h
            | cons u us ih2 =>
                intro acc2 hm
                rw [List.foldl_cons] at hm
                rcases ih2 _ hm with h2 | h2
                · by_cases hg : (bucketFor acc2.1 acc.2).getD [] = []
                  · rw [if_pos hg] at h2
                    have hperm : namesOf (appendToBucket
                        (resetBucket acc2.1 acc.2) acc.2 u) ~ u :: namesOf acc2.1 := by
                      refine (namesOf_appendToBucket _ _ _).trans ?_
                      rw [namesOf_resetBucket _ _ hg]
                    rcases List.mem_cons.mp (hperm.mem_iff.mp h2) with h3 | h3
                    · exact Or.inr (by simp [h3])
                    · exact Or.inl h3
                  · rw [if_neg hg] at h2
                    exact Or.inl h2
                · exact Or.inr (by simp [h2])
          rcases this g.2 acc hacc with h4 | h4
          · exact Or.inl h4
          · exact Or.inr (by simp [namesOf_cons, h4])
        · exact Or.inr (by simp [namesOf_cons]; exact Or.inr hrest)
  unfold place_teams_in_rankings at h
  rcases hsorted _ _ h with h5 | h5
  · simp [namesOf] at h5
  · -- transport membership back through the descending sort
    have : ∀ (l : List (Nat × List String)) (acc : List (Nat × List String)),
        l.foldl (fun a g => insertGroupDesc g a) acc ~ acc ++ l := by
      intro l
      induction l with
      | nil => simp
      | cons g rest ih =>
          intro acc
          rw [List.foldl_cons]
          refine (ih _).trans ?_
          have hi : ∀ gs, insertGroupDesc g gs ~ g :: gs := by
            intro gs
            induction gs with
            | nil => rfl
            | cons c cs ih2 =>
                rw [insertGroupDesc]
                by_cases hc : g.1 > c.1
                · rw [if_pos hc]
                · rw [if_neg hc]
                  exact (ih2.cons c).trans (List.Perm.swap g c cs)
          exact (((hi acc).append_right rest).trans List.perm_middle.symm).trans
            (by simp)
    have hperm : sortGroupsDesc gs ~ gs := by
      simpa [sortGroupsDesc] using this gs []
    exact (namesOf_perm_of_perm hperm).mem_iff.mp h5

/-- The head-to-head pass preserves the name multiset. -/
lemma namesOf_solve_ties_through_head_to_heads {names : List String}
    (hnd : names.Nodup) (teams : List Team) (s : Standings)
    (h : namesOf s ~ names) (hsub : ∀ b ∈ s, ∀ t ∈ b.2, t ∈ names) :
    namesOf (solve_ties_through_head_to_heads teams s) ~ names := by
  unfold solve_ties_through_head_to_heads
  have : ∀ (l : List (Nat × List String)) (cur : Standings),
      namesOf cur ~ names → (∀ b ∈ l, ∀ t ∈ b.2, t ∈ names) →
      namesOf (l.foldl (fun cur b => solveBucketH2h teams b.1 b.2 cur) cur) ~
        names := by
    intro l
    induction l with
    | nil => exact fun cur hc _ => hc
    | cons b rest ih =>
        intro cur hc hs
        rw [List.foldl_cons]
        refine ih _ ?_ (fun c hcm u hu => hs c (by simp [hcm]) u hu)
        unfold solveBucketH2h
        by_cases hlen : b.2.length > 1
        · rw [if_pos hlen]
          refine namesOf_applyPlacings hnd _ _ _ hc ?_
          intro pr hpr u hu
          have h1 : u ∈ namesOf (place_teams_in_rankings
              (teams_by_records (b.2.map (fun tn =>
                (tn, (lookupTeam teams tn).head_to_head_wins
                  ((b.2.filter (fun o => o ≠ tn)).map (lookupTeam teams)))))) 0) := by
            simp only [namesOf, List.mem_flatMap]
            exact ⟨pr, hpr, hu⟩
          have h2 := mem_namesOf_place_teams_in_rankings h1
          have h3 := (namesOf_teams_by_records _).mem_iff.mp h2
          simp only [List.map_map, List.mem_map] at h3
          obtain ⟨tn, htn, rfl⟩ := h3
          exact hs b (by simp) tn htn
        · rw [if_neg hlen]
          exact hc
  exact this s s h hsub

/-- The second-half pass preserves the name multiset. -/
lemma namesOf_solve_ties_through_wins_in_second_half {names : List String}
    (hnd : names.Nodup) (teams : List Team) (s : Standings)
    (h : namesOf s ~ names) (hsub : ∀ b ∈ s, ∀ t ∈ b.2, t ∈ names) :
    namesOf (solve_ties_through_wins_in_second_half teams s) ~ names := by
  unfold solve_ties_through_wins_in_second_half
  have : ∀ (l : List (Nat × List String)) (cur : Standings),
      namesOf cur ~ names → (∀ b ∈ l, ∀ t ∈ b.2, t ∈ names) →
      namesOf (l.foldl (fun cur b => solveBucketSecondHalf teams b.1 b.2 cur) cur) ~
        names := by
    intro l
    induction l with
    | nil => exact fun cur hc _ => hc
    | cons b rest ih =>
        intro cur hc hs
        rw [List.foldl_cons]
        refine ih _ ?_ (fun c hcm u hu => hs c (by simp [hcm]) u hu)
        unfold solveBucketSecondHalf
        by_cases hlen : b.2.length > 1
        · rw [if_pos hlen]
          refine namesOf_applyPlacings hnd _ _ _ hc ?_
          intro pr hpr u hu
          have h1 : u ∈ namesOf (place_teams_in_rankings
              (teams_by_records (b.2.map (fun tn =>
                (tn, (lookupTeam teams tn).wins_in_second_half)))) 0) := by
            simp only [namesOf, List.mem_flatMap]
            exact ⟨pr, hpr, hu⟩
          have h2 := mem_namesOf_place_teams_in_rankings h1
          have h3 := (namesOf_teams_by_records _).mem_iff.mp h2
          simp only [List.map_map, List.mem_map] at h3
          obtain ⟨tn, htn, rfl⟩ := h3
          exact hs b (by simp) tn htn
        · rw [if_neg hlen]
          exact hc
  exact this s s h hsub

/-- `make_tiebreaker` preserves the name multiset of duplicate-free
standings. -/
lemma namesOf_make_tiebreaker {names : List String} (hnd : names.Nodup)
    (teams : List Team) (s : Standings) (h : namesOf s ~ names) :
    namesOf (make_tiebreaker teams s) ~ names := by
  unfold make_tiebreaker
  have hsub : ∀ b ∈ s, ∀ t ∈ b.2, t ∈ names := by
    intro b hb t htm
    refine h.mem_iff.mp ?_
    simp only [namesOf, List.mem_flatMap]
    exact ⟨b, hb, htm⟩
  have h1 := namesOf_solve_ties_through_head_to_heads hnd teams s h hsub
  refine namesOf_solve_ties_through_wins_in_second_half hnd teams _ h1 ?_
  intro b hb t htm
  refine h1.mem_iff.mp ?_
  simp only [namesOf, List.mem_flatMap]
  exact ⟨b, hb, htm⟩

/-! ## Counting lemmas for `_cumulate_outcome` -/

lemma pairsOf_cons (b : Nat × List String) (rest : Standings) :
    pairsOf (b :: rest) = b.2.map (fun t => (t, b.1)) ++ pairsOf rest := by
  simp [pairsOf]

lemma numEntries_cons (b : String × RankCounts) (rest : Agg) (tn : String) :
    numEntries (b :: rest) tn =
      (if b.1 = tn then b.2.length else 0) + numEntries rest tn := by
  by_cases hb : b.1 = tn <;> simp [numEntries, List.filter_cons, hb]

lemma theTotal_cons (b : String × RankCounts) (rest : Agg) (tn : String) :
    theTotal (b :: rest) tn =
      (if b.1 = tn then (b.2.map (fun q => q.2)).sum else 0) + theTotal rest tn := by
  by_cases hb : b.1 = tn <;> simp [theTotal, List.filter_cons, hb]

lemma pairsOf_map_fst (s : Standings) : (pairsOf s).map Prod.fst = namesOf s := by
  induction s with
  | nil => rfl
  | cons b rest ih =>
      rw [pairsOf_cons, namesOf_cons, List.map_append, ih, List.map_map]
      congr 1
      have hcomp : (Prod.fst ∘ fun t : String => (t, b.1)) = fun t => t := rfl
      rw [hcomp, List.map_id']

lemma cumulate_outcome_eq_foldl_pairs (s : Standings) :
    cumulate_outcome s =
      (pairsOf s).foldl (fun agg p => addTeamStanding agg p.1 p.2) [] := by
  suffices h : ∀ (l : List (Nat × List String)) (agg : Agg),
      l.foldl (fun agg b =>
          b.2.foldl (fun agg2 tn => addTeamStanding agg2 tn b.1) agg) agg =
        (pairsOf l).foldl (fun agg p => addTeamStanding agg p.1 p.2) agg by
    exact h s []
  intro l
  induction l with
  | nil => intro agg; rfl
  | cons b rest ih =>
      intro agg
      simp only [List.foldl_cons, pairsOf, List.flatMap_cons, List.foldl_append,
        List.foldl_map]
      simp only [pairsOf] at ih
      exact ih _

lemma numEntries_addTeamStanding_ne (agg : Agg) (t : String) (std : Nat)
    {tn : String} (h : t ≠ tn) :
    numEntries (addTeamStanding agg t std) tn = numEntries agg tn := by
  induction agg with
  | nil => simp [addTeamStanding, numEntries, h]
  | cons b rest ih =>
      obtain ⟨n, rc⟩ := b
      rw [addTeamStanding]
      by_cases hn : n = t
      · have hntn : ¬ n = tn := by rw [hn]; exact h
        rw [if_pos hn, numEntries_cons, numEntries_cons, if_neg hntn, if_neg hntn]
      · rw [if_neg hn, numEntries_cons, numEntries_cons, ih]

lemma addTeamStanding_of_not_mem (agg : Agg) (t : String) (std : Nat)
    (h : t ∉ agg.map Prod.fst) :
    addTeamStanding agg t std = agg ++ [(t, [(std, 1)])] := by
  induction agg with
  | nil => rfl
  | cons b rest ih =>
      obtain ⟨n, rc⟩ := b
      have hn : ¬ n = t := by
        intro he; exact h (by simp [he])
      rw [addTeamStanding, if_neg hn, ih (fun hm => h (by simp [hm]))]
      simp

lemma numEntries_of_not_mem {agg : Agg} {tn : String}
    (h : tn ∉ agg.map Prod.fst) : numEntries agg tn = 0 := by
  induction agg with
  | nil => rfl
  | cons b rest ih =>
      have hb : ¬ b.1 = tn := by
        intro he; exact h (by simp [he])
      simp only [numEntries, List.filter_cons]
      rw [if_neg (by simpa using hb)]
      exact ih (fun hm => h (by simp [hm]))

lemma numEntries_append_single (agg : Agg) (tn : String) (std : Nat) :
    numEntries (agg ++ [(tn, [(std, 1)])]) tn = numEntries agg tn + 1 := by
  simp [numEntries, List.filter_append]

lemma not_mem_keys_addTeamStanding {agg : Agg} {t tn : String} (std : Nat)
    (h1 : tn ∉ agg.map Prod.fst) (h2 : tn ≠ t) :
    tn ∉ (addTeamStanding agg t std).map Prod.fst := by
  induction agg with
  | nil => simpa [addTeamStanding] using h2
  | cons b rest ih =>
      obtain ⟨n, rc⟩ := b
      rw [addTeamStanding]
      by_cases hn : n = t
      · rw [if_pos hn]
        simpa using h1
      · rw [if_neg hn]
        have := ih (fun hm => h1 (by simp [hm]))
        intro hmem
        rcases (by simpa using hmem : tn = n ∨
            tn ∈ (addTeamStanding rest t std).map Prod.fst) with he | hm
        · exact h1 (by simp [he])
        · exact this hm

lemma numEntries_fold_of_not_mem (pairs : List (String × Nat)) (agg : Agg)
    (tn : String) (h : tn ∉ pairs.map Prod.fst) :
    numEntries (pairs.foldl (fun agg p => addTeamStanding agg p.1 p.2) agg) tn =
      numEntries agg tn := by
  induction pairs generalizing agg with
  | nil => rfl
  | cons p rest ih =>
      rw [List.foldl_cons]
      rw [ih _ (fun hm => h (by simp [hm]))]
      exact numEntries_addTeamStanding_ne agg p.1 p.2
        (fun he => h (by simp [he]))

lemma numEntries_fold_count_one (pairs : List (String × Nat)) (agg : Agg)
    (tn : String) (hk : tn ∉ agg.map Prod.fst)
    (hc : (pairs.map Prod.fst).count tn = 1) :
    numEntries (pairs.foldl (fun agg p => addTeamStanding agg p.1 p.2) agg) tn =
      1 := by
  induction pairs generalizing agg with
  | nil => simp at hc
  | cons p rest ih =>
      rw [List.foldl_cons]
      by_cases hp : p.1 = tn
      · have hrest : tn ∉ rest.map Prod.fst := by
          rw [List.map_cons, List.count_cons, if_pos (beq_iff_eq.mpr hp)] at hc
          exact List.count_eq_zero.mp (by omega)
        have hk' : p.1 ∉ agg.map Prod.fst := by rw [hp]; exact hk
        rw [numEntries_fold_of_not_mem rest _ tn hrest,
          addTeamStanding_of_not_mem agg p.1 p.2 hk', hp,
          numEntries_append_single, numEntries_of_not_mem hk]
      · have hc' : (rest.map Prod.fst).count tn = 1 := by
          rw [List.map_cons, List.count_cons,
            if_neg (fun hb => hp (beq_iff_eq.mp hb))] at hc
          omega
        exact ih _ (not_mem_keys_addTeamStanding p.2 hk (fun he => hp he.symm)) hc'

/-- One scenario whose standings carry a team exactly once stores for
that team exactly one ranking entry. -/
lemma numEntries_cumulate_outcome {s : Standings} {tn : String}
    (h : (namesOf s).count tn = 1) :
    numEntries (cumulate_outcome s) tn = 1 := by
  rw [cumulate_outcome_eq_foldl_pairs]
  exact numEntries_fold_count_one (pairsOf s) [] tn (by simp)
    (by rw [pairsOf_map_fst]; exact h)

/-! ## Counting lemmas for `_cumulate_results` -/

lemma sum_bumpRanking (rc : RankCounts) (rk : Nat) :
    ((bumpRanking rc rk).map (fun q => q.2)).sum =
      (rc.map (fun q => q.2)).sum + 1 := by
  induction rc with
  | nil => rfl
  | cons q rest ih =>
      obtain ⟨k, v⟩ := q
      rw [bumpRanking]
      by_cases hk : k = rk
      · rw [if_pos hk]
        simp only [List.map_cons, List.sum_cons]
        omega
      · rw [if_neg hk]
        simp only [List.map_cons, List.sum_cons, ih]
        omega

lemma theTotal_bumpTeamRanking (agg : Agg) (tn : String) (rk : Nat) :
    theTotal (bumpTeamRanking agg tn rk) tn = theTotal agg tn + 1 := by
  induction agg with
  | nil => simp [bumpTeamRanking, theTotal]
  | cons b rest ih =>
      obtain ⟨n, rc⟩ := b
      rw [bumpTeamRanking]
      by_cases hn : n = tn
      · rw [if_pos hn, theTotal_cons, theTotal_cons, if_pos hn, if_pos hn,
          sum_bumpRanking]
        dsimp only
        omega
      · rw [if_neg hn, theTotal_cons, theTotal_cons, if_neg hn, ih]
        omega

lemma theTotal_bumpTeamRanking_ne (agg : Agg) {t tn : String} (rk : Nat)
    (h : t ≠ tn) :
    theTotal (bumpTeamRanking agg t rk) tn = theTotal agg tn := by
  induction agg with
  | nil => simp [bumpTeamRanking, theTotal, h]
  | cons b rest ih =>
      obtain ⟨n, rc⟩ := b
      rw [bumpTeamRanking]
      by_cases hn : n = t
      · rw [if_pos hn, theTotal_cons, theTotal_cons]
        rw [hn]
        simp [h]
      · rw [if_neg hn, theTotal_cons, theTotal_cons, ih]

lemma theTotal_setTeamEmpty_ne (agg : Agg) {t tn : String} (h : t ≠ tn) :
    theTotal (setTeamEmpty agg t) tn = theTotal agg tn := by
  induction agg with
  | nil => simp [setTeamEmpty, theTotal, h]
  | cons b rest ih =>
      obtain ⟨n, rc⟩ := b
      rw [setTeamEmpty]
      by_cases hn : n = t
      · rw [if_pos hn, theTotal_cons, theTotal_cons]
        rw [hn]
        simp [h]
      · rw [if_neg hn, theTotal_cons, theTotal_cons, ih]

lemma theTotal_setTeamEmpty_guard (agg : Agg) (tn : String)
    (h : (lookupAgg agg tn).getD [] = []) :
    theTotal (setTeamEmpty agg tn) tn = theTotal agg tn := by
  induction agg with
  | nil => simp [setTeamEmpty, theTotal]
  | cons b rest ih =>
      obtain ⟨n, rc⟩ := b
      rw [setTeamEmpty]
      by_cases hn : n = tn
      · rw [if_pos hn, theTotal_cons, theTotal_cons]
        have hrc : rc = [] := by
          simpa [lookupAgg, List.find?, hn] using h
        simp [hn, hrc]
      · rw [if_neg hn, theTotal_cons, theTotal_cons,
          ih (by simpa [lookupAgg, List.find?, hn] using h)]

lemma theTotal_inner_fold (rc : RankCounts) (acc : Agg) (n tn : String) :
    theTotal (rc.foldl (fun a pr => bumpTeamRanking a n pr.1) acc) tn =
      theTotal acc tn + (if n = tn then rc.length else 0) := by
  induction rc generalizing acc with
  | nil => simp
  | cons pr rest ih =>
      rw [List.foldl_cons, ih]
      by_cases hn : n = tn
      · rw [if_pos hn, if_pos hn]
        rw [hn, theTotal_bumpTeamRanking]
        simp
        omega
      · rw [if_neg hn, if_neg hn, theTotal_bumpTeamRanking_ne acc pr.1 hn]

/-- Each dequeued result adds to a team's aggregate total exactly the
number of ranking entries that result stores for the team (the source's
`+= 1` per entry). -/
lemma theTotal_cumulateResultsStep (agg r : Agg) (tn : String) :
    theTotal (cumulateResultsStep agg r) tn = theTotal agg tn + numEntries r tn := by
  suffices h : ∀ (l : List (String × RankCounts)) (acc : Agg),
      theTotal (l.foldl
        (fun acc p =>
          let acc1 := if (lookupAgg acc p.1).getD [] = [] then setTeamEmpty acc p.1
                      else acc
          p.2.foldl (fun acc2 pr => bumpTeamRanking acc2 p.1 pr.1) acc1) acc) tn =
        theTotal acc tn + numEntries l tn by
    exact h r agg
  intro l
  induction l with
  | nil => intro acc; simp [numEntries]
  | cons p rest ih =>
      intro acc
      rw [List.foldl_cons, ih, theTotal_inner_fold, numEntries_cons]
      by_cases hp : p.1 = tn
      · rw [if_pos hp]
        by_cases hg : (lookupAgg acc p.1).getD [] = []
        · rw [if_pos hg, hp, theTotal_setTeamEmpty_guard acc tn
            (by rw [hp] at hg; exact hg)]
          omega
        · rw [if_neg hg]
          omega
      · rw [if_neg hp]
        by_cases hg : (lookupAgg acc p.1).getD [] = []
        · rw [if_pos hg, theTotal_setTeamEmpty_ne acc hp]
          omega
        · rw [if_neg hg]
          omega

lemma theTotal_cumulate_results (results : List Agg) (tn : String) :
    theTotal (cumulate_results results) tn =
      (results.map (fun r => numEntries r tn)).sum := by
  suffices h : ∀ (l : List Agg) (acc : Agg),
      theTotal (l.foldl cumulateResultsStep acc) tn =
        theTotal acc tn + (l.map (fun r => numEntries r tn)).sum by
    simpa [theTotal] using h results []
  intro l
  induction l with
  | nil => intro acc; simp
  | cons r rest ih =>
      intro acc
      rw [List.foldl_cons, ih, theTotal_cumulateResultsStep]
      simp
      omega

/-! ## The aggregate's team keys stay duplicate-free -/

lemma mem_keys_setTeamEmpty {agg : Agg} {t u : String} :
    u ∈ (setTeamEmpty agg t).map Prod.fst ↔ u ∈ agg.map Prod.fst ∨ u = t := by
  induction agg with
  | nil => simp [setTeamEmpty]
  | cons b rest ih =>
      obtain ⟨n, rc⟩ := b
      rw [setTeamEmpty]
      by_cases hn : n = t
      · rw [if_pos hn]
        subst hn
        simp
        tauto
      · rw [if_neg hn]
        simp only [List.map_cons, List.mem_cons, ih]
        tauto

lemma keys_nodup_setTeamEmpty {agg : Agg} (t : String)
    (h : (agg.map Prod.fst).Nodup) :
    ((setTeamEmpty agg t).map Prod.fst).Nodup := by
  induction agg with
  | nil => simp [setTeamEmpty]
  | cons b rest ih =>
      obtain ⟨n, rc⟩ := b
      rw [setTeamEmpty]
      by_cases hn : n = t
      · rw [if_pos hn]
        simpa using h
      · rw [if_neg hn]
        simp only [List.map_cons, List.nodup_cons] at h ⊢
        refine ⟨fun hm => ?_, ih h.2⟩
        rcases mem_keys_setTeamEmpty.mp hm with hm | hm
        · exact h.1 hm
        · exact hn hm

lemma mem_keys_bumpTeamRanking {agg : Agg} {t u : String} {rk : Nat} :
    u ∈ (bumpTeamRanking agg t rk).map Prod.fst ↔
      u ∈ agg.map Prod.fst ∨ u = t := by
  induction agg with
  | nil => simp [bumpTeamRanking]
  | cons b rest ih =>
      obtain ⟨n, rc⟩ := b
      rw [bumpTeamRanking]
      by_cases hn : n = t
      · rw [if_pos hn]
        subst hn
        simp
        tauto
      · rw [if_neg hn]
        simp only [List.map_cons, List.mem_cons, ih]
        tauto

lemma keys_nodup_bumpTeamRanking {agg : Agg} (t : String) (rk : Nat)
    (h : (agg.map Prod.fst).Nodup) :
    ((bumpTeamRanking agg t rk).map Prod.fst).Nodup := by
  induction agg with
  | nil => simp [bumpTeamRanking]
  | cons b rest ih =>
      obtain ⟨n, rc⟩ := b
      rw [bumpTeamRanking]
      by_cases hn : n = t
      · rw [if_pos hn]
        simpa using h
      · rw [if_neg hn]
        simp only [List.map_cons, List.nodup_cons] at h ⊢
        refine ⟨fun hm => ?_, ih h.2⟩
        rcases mem_keys_bumpTeamRanking.mp hm with hm | hm
        · exact h.1 hm
        · exact hn hm

lemma keys_nodup_inner_bump_fold (rc : RankCounts) (acc : Agg) (n : String)
    (h : (acc.map Prod.fst).Nodup) :
    (((rc.foldl (fun a pr => bumpTeamRanking a n pr.1) acc)).map Prod.fst).Nodup := by
  induction rc generalizing acc with
  | nil => exact h
  | cons pr rest ih =>
      rw [List.foldl_cons]
      exact ih _ (keys_nodup_bumpTeamRanking n pr.1 h)

lemma keys_nodup_cumulateResultsStep (agg r : Agg)
    (h : (agg.map Prod.fst).Nodup) :
    ((cumulateResultsStep agg r).map Prod.fst).Nodup := by
  unfold cumulateResultsStep
  induction r generalizing agg with
  | nil => exact h
  | cons p rest ih =>
      rw [List.foldl_cons]
      refine ih _ ?_
      refine keys_nodup_inner_bump_fold _ _ _ ?_
      by_cases hg : (lookupAgg agg p.1).getD [] = []
      · rw [if_pos hg]
        exact keys_nodup_setTeamEmpty p.1 h
      · rw [if_neg hg]
        exact h

lemma keys_nodup_cumulate_results (results : List Agg) :
    ((cumulate_results results).map Prod.fst).Nodup := by
  suffices h : ∀ (l : List Agg) (acc : Agg), (acc.map Prod.fst).Nodup →
      ((l.foldl cumulateResultsStep acc).map Prod.fst).Nodup by
    exact h results [] (by simp)
  intro l
  induction l with
  | nil => exact fun acc h => h
  | cons r rest ih =>
      intro acc h
      rw [List.foldl_cons]
      exact ih _ (keys_nodup_cumulateResultsStep acc r h)

lemma theTotal_of_not_mem {agg : Agg} {tn : String}
    (h : tn ∉ agg.map Prod.fst) : theTotal agg tn = 0 := by
  induction agg with
  | nil => rfl
  | cons b rest ih =>
      have hb : ¬ b.1 = tn := fun he => h (by simp [he])
      rw [theTotal_cons, if_neg hb, ih (fun hm => h (by simp [hm]))]

/-- Under duplicate-free keys, the lookup-based total the program
reports equals the filter-based total of the proofs. -/
lemma sumCountsFor_eq_theTotal (agg : Agg) (tn : String)
    (h : (agg.map Prod.fst).Nodup) : sumCountsFor agg tn = theTotal agg tn := by
  induction agg with
  | nil => rfl
  | cons b rest ih =>
      obtain ⟨n, rc⟩ := b
      simp only [List.map_cons, List.nodup_cons] at h
      by_cases hn : n = tn
      · subst hn
        rw [theTotal_cons, if_pos rfl, theTotal_of_not_mem h.1]
        simp [sumCountsFor, lookupAgg, List.find?]
      · rw [theTotal_cons, if_neg hn, ← ih h.2]
        simp [sumCountsFor, lookupAgg, List.find?, hn]

/-! ## Team names of a constructed league -/

lemma map_name_addMatchForTeam (acc : List Team) (n : String) (m : Match) :
    (addMatchForTeam acc n m).map Team.name =
      if n ∈ acc.map Team.name then acc.map Team.name
      else acc.map Team.name ++ [n] := by
  induction acc with
  | nil => simp [addMatchForTeam]
  | cons t rest ih =>
      rw [addMatchForTeam]
      by_cases ht : t.name = n
      · rw [if_pos ht]
        simp [ht]
      · rw [if_neg ht]
        simp only [List.map_cons, ih]
        by_cases hm : n ∈ rest.map Team.name
        · rw [if_pos hm, if_pos (by simp [hm])]
        · rw [if_neg hm, if_neg (by simp [hm]; exact fun he => ht he.symm)]
          simp

/-- The name list a league build produces depends only on the matches'
team pairs, not on weeks or results. -/
lemma names_get_league_eq (ms₁ ms₂ : List Match)
    (h : ms₁.map (fun m => m.teams) = ms₂.map (fun m => m.teams)) :
    (get_league_from_matches ms₁).map Team.name =
      (get_league_from_matches ms₂).map Team.name := by
  suffices hgen : ∀ (l₁ l₂ : List Match) (acc₁ acc₂ : List Team),
      l₁.map (fun m => m.teams) = l₂.map (fun m => m.teams) →
      acc₁.map Team.name = acc₂.map Team.name →
      ((l₁.foldl (fun acc m =>
          addMatchForTeam (addMatchForTeam acc m.teams.1 m) m.teams.2 m) acc₁).map
        Team.name) =
      ((l₂.foldl (fun acc m =>
          addMatchForTeam (addMatchForTeam acc m.teams.1 m) m.teams.2 m) acc₂).map
        Team.name) by
    exact hgen ms₁ ms₂ [] [] h rfl
  intro l₁
  induction l₁ with
  | nil =>
      intro l₂ acc₁ acc₂ ht hacc
      cases l₂ with
      | nil => exact hacc
      | cons _ _ => simp at ht
  | cons m rest ih =>
      intro l₂ acc₁ acc₂ ht hacc
      cases l₂ with
      | nil => simp at ht
      | cons m₂ rest₂ =>
          simp only [List.map_cons, List.cons.injEq] at ht
          obtain ⟨hmt, hrest⟩ := ht
          rw [List.foldl_cons, List.foldl_cons]
          refine ih rest₂ _ _ hrest ?_
          rw [map_name_addMatchForTeam, map_name_addMatchForTeam,
            map_name_addMatchForTeam, map_name_addMatchForTeam, hacc, hmt]

lemma names_addMatchForTeam_nodup (acc : List Team) (n : String) (m : Match)
    (h : (acc.map Team.name).Nodup) :
    ((addMatchForTeam acc n m).map Team.name).Nodup := by
  rw [map_name_addMatchForTeam]
  by_cases hm : n ∈ acc.map Team.name
  · rw [if_pos hm]
    exact h
  · rw [if_neg hm]
    simp [List.nodup_append, h, hm]

/-- League construction never produces two teams with the same name. -/
lemma names_get_league_nodup (ms : List Match) :
    ((get_league_from_matches ms).map Team.name).Nodup := by
  suffices hgen : ∀ (l : List Match) (acc : List Team),
      (acc.map Team.name).Nodup →
      ((l.foldl (fun acc m =>
          addMatchForTeam (addMatchForTeam acc m.teams.1 m) m.teams.2 m) acc).map
        Team.name).Nodup by
    exact hgen ms [] (by simp)
  intro l
  induction l with
  | nil => exact fun acc h => h
  | cons m rest ih =>
      intro acc h
      rw [List.foldl_cons]
      exact ih _ (names_addMatchForTeam_nodup _ _ _
        (names_addMatchForTeam_nodup _ _ _ h))

/-- Assigning hypothetical outcomes changes results only, never the
participating teams. -/
lemma set_upcoming_teams (ms : List Match) (p : List Nat)
    (h : p.length = ms.length) :
    (set_upcoming_matches_outcomes ms p).map (fun m => m.teams) =
      ms.map (fun m => m.teams) := by
  induction ms generalizing p with
  | nil => simp [set_upcoming_matches_outcomes]
  | cons m rest ih =>
      cases p with
      | nil => simp at h
      | cons b bs =>
          simp only [set_upcoming_matches_outcomes, List.zipWith_cons_cons,
            List.map_cons]
          rw [show ({ m with result := some (if b = 1 then (1, 0) else (0, 1)) } :
              Match).teams = m.teams from rfl]
          have := ih bs (by simpa using h)
          simp only [set_upcoming_matches_outcomes] at this
          rw [this]

/-! ## The scenario space -/

lemma length_allPossibilities (n : Nat) : (allPossibilities n).length = 2 ^ n := by
  induction n with
  | zero => rfl
  | succ k ih =>
      simp only [allPossibilities, List.length_append, List.length_map, ih]
      rw [pow_succ]
      omega

lemma length_of_mem_allPossibilities {n : Nat} {p : List Nat}
    (h : p ∈ allPossibilities n) : p.length = n := by
  induction n generalizing p with
  | zero =>
      simp only [allPossibilities, List.mem_singleton] at h
      simp [h]
  | succ k ih =>
      simp only [allPossibilities, List.mem_append, List.mem_map] at h
      rcases h with ⟨q, hq, rfl⟩ | ⟨q, hq, rfl⟩ <;> simp [ih hq]

/-! ## C1 -/

/-- C1.  For every match list, when the engine aggregates the results of
all `2^U` scenarios (`U` = number of unfinished matches), the counts
recorded for each of the league's teams sum over all ranks to exactly
`2^U`: every scenario's resolved standings assign exactly one rank to
every team. -/
theorem aggregate_totals_eq_two_pow_unfinished (ms : List Match) (tn : String)
    (h : tn ∈ (get_league_from_matches
        (finishedMatches ms ++ upcomingMatches ms)).map Team.name) :
    sumCountsFor (possibilityAggregate ms) tn =
      2 ^ (upcomingMatches ms).length := by
  rw [possibilityAggregate,
    sumCountsFor_eq_theTotal _ _ (keys_nodup_cumulate_results _),
    theTotal_cumulate_results]
  have hone : ∀ x ∈ (scenarioResults ms).map (fun r => numEntries r tn), x = 1 := by
    intro x hx
    obtain ⟨r, hr, rfl⟩ := List.mem_map.mp hx
    rw [scenarioResults] at hr
    obtain ⟨p, hp, rfl⟩ := List.mem_map.mp hr
    apply numEntries_cumulate_outcome
    have hlen : p.length = (upcomingMatches ms).length :=
      length_of_mem_allPossibilities hp
    have hnames : (scenarioTeams ms p).map Team.name =
        (get_league_from_matches
          (finishedMatches ms ++ upcomingMatches ms)).map Team.name := by
      apply names_get_league_eq
      rw [List.map_append, List.map_append,
        set_upcoming_teams (upcomingMatches ms) p hlen]
    have hnd : ((scenarioTeams ms p).map Team.name).Nodup :=
      names_get_league_nodup _
    have hperm : namesOf (scenarioStandings ms p) ~
        (scenarioTeams ms p).map Team.name := by
      unfold scenarioStandings
      exact namesOf_make_tiebreaker hnd _ _ (namesOf_leagueStandings _)
    rw [hperm.count_eq, hnames]
    exact count_eq_one_of_mem (hnames ▸ hnd) h
  rw [List.eq_replicate_of_mem hone, List.sum_replicate, smul_eq_mul, mul_one,
    List.length_map]
  simp [scenarioResults, length_allPossibilities]

/-- Witness for C1 on the two-team league with one unfinished match. -/
theorem aggregate_totals_eq_two_pow_unfinished_witness :
    sumCountsFor (possibilityAggregate tinyMs) "A" = 2 :=
  (aggregate_totals_eq_two_pow_unfinished tinyMs "A" (by decide)).trans (by decide)

/-! ## C3 -/

/-- C3.  (i) After League construction the standings buckets carry
exactly the team-name list (as a multiset — so for the distinct names a
league has, no team is missing and none is duplicated).  (ii) Each call
of the standings-mutation primitive `_set_standing_for_team` on
standings carrying the name multiset, for a team of that multiset,
preserves it — so the partition invariant holds after construction and
after every primitive call during tiebreaking. -/
theorem standings_partition_invariant :
    (∀ teams : List Team,
        namesOf (leagueStandings teams) ~ teams.map Team.name) ∧
    (∀ (s : Standings) (names : List String) (t : String) (r : Nat),
        namesOf s ~ names → t ∈ names →
        namesOf (set_standing_for_team t r s) ~ names) := by
  refine ⟨namesOf_leagueStandings, fun s names t r hp ht => ?_⟩
  exact (namesOf_set_of_mem r ((hp.mem_iff).mpr ht)).trans hp

/-- Witness for C3 at a concrete league and a concrete mutation. -/
theorem standings_partition_invariant_witness :
    namesOf (leagueStandings exTeams2) ~ ["X", "Y", "Z", "W"] ∧
      namesOf (set_standing_for_team "X" 5 [(1, ["X", "Y"])]) ~ ["X", "Y"] := by
  constructor
  · have h := standings_partition_invariant.1 exTeams2
    simpa using h
  · exact standings_partition_invariant.2 [(1, ["X", "Y"])] ["X", "Y"] "X" 5
      (by decide) (by decide)

/-! ## Structure of `make_standings` (C5, and bucket geometry for C8/C9) -/

lemma addToGroups_nonempty [DecidableEq α] (acc : List (α × List String))
    (key : α) (n : String) (h : ∀ g ∈ acc, g.2 ≠ []) :
    ∀ g ∈ addToGroups acc key n, g.2 ≠ [] := by
  induction acc with
  | nil => simp [addToGroups]
  | cons b bs ih =>
      obtain ⟨k, ns⟩ := b
      rw [addToGroups]
      by_cases hk : k = key
      · rw [if_pos hk]
        intro g hg
        rcases List.mem_cons.mp hg with rfl | hg
        · simp
        · exact h g (List.mem_cons_of_mem _ hg)
      · rw [if_neg hk]
        intro g hg
        rcases List.mem_cons.mp hg with rfl | hg
        · exact h (k, ns) (by simp)
        · exact ih (fun g' hg' => h g' (List.mem_cons_of_mem _ hg')) g hg

lemma teams_by_records_nonempty [DecidableEq α] (tbl : List (String × α)) :
    ∀ g ∈ teams_by_records tbl, g.2 ≠ [] := by
  suffices hgen : ∀ (l : List (String × α)) (acc : List (α × List String)),
      (∀ g ∈ acc, g.2 ≠ []) →
      ∀ g ∈ l.foldl (fun gs p => addToGroups gs p.2 p.1) acc, g.2 ≠ [] by
    exact fun g hg => hgen tbl [] (by simp) g hg
  intro l
  induction l with
  | nil => exact fun acc h => h
  | cons p rest ih =>
      intro acc h
      exact ih _ (addToGroups_nonempty acc p.2 p.1 h)

lemma bucketFor_eq_none_of_lt (s : Standings) (k : Nat)
    (h : ∀ b ∈ s, b.1 < k) : bucketFor s k = none := by
  have hfind : s.find? (fun b => b.1 = k) = none :=
    List.find?_eq_none.mpr (fun x hx => by
      have := h x hx
      simp only [decide_eq_true_eq]
      omega)
  simp [bucketFor, hfind]

lemma resetBucket_of_not_mem (s : Standings) (k : Nat)
    (h : ∀ b ∈ s, b.1 ≠ k) : resetBucket s k = s ++ [(k, [])] := by
  induction s with
  | nil => rfl
  | cons b rest ih =>
      obtain ⟨r, ts⟩ := b
      rw [resetBucket, if_neg (h (r, ts) (by simp)),
        ih (fun c hc => h c (List.mem_cons_of_mem _ hc))]
      simp

lemma appendToBucket_last (s : Standings) (k : Nat) (acc : List String)
    (t : String) (h : ∀ b ∈ s, b.1 ≠ k) :
    appendToBucket (s ++ [(k, acc)]) k t = s ++ [(k, acc ++ [t])] := by
  induction s with
  | nil => simp [appendToBucket]
  | cons b rest ih =>
      obtain ⟨r, ts⟩ := b
      simp only [List.cons_append, appendToBucket]
      rw [if_neg (h (r, ts) (by simp))]
      exact congrArg _ (ih (fun c hc => h c (List.mem_cons_of_mem _ hc)))

lemma foldl_appendToBucket_last (l : List String) (s : Standings) (k : Nat)
    (acc : List String) (h : ∀ b ∈ s, b.1 ≠ k) :
    l.foldl (fun s t => appendToBucket s k t) (s ++ [(k, acc)]) =
      s ++ [(k, acc ++ l)] := by
  induction l generalizing acc with
  | nil => simp
  | cons t rest ih =>
      rw [List.foldl_cons, appendToBucket_last s k acc t h, ih (acc ++ [t])]
      simp

lemma make_standings_foldl_spec :
    ∀ (gs : List ((Nat × Nat) × List String)) (s : Standings) (next : Nat),
      (∀ g ∈ gs, g.2 ≠ []) → (∀ b ∈ s, b.1 < next) →
      (gs.foldl msGroup (s, next)).1 = s ++ msSpecRanks next gs := by
  intro gs
  induction gs with
  | nil =>
      intro s next _ _
      simp [msSpecRanks]
  | cons g rest ih =>
      intro s next hne hlt
      have hne' : ∀ b ∈ s, b.1 ≠ next := fun b hb => Nat.ne_of_lt (hlt b hb)
      have hstep : msGroup (s, next) g = (s ++ [(next, g.2)], next + g.2.length) := by
        unfold msGroup
        rw [bucketFor_eq_none_of_lt s next hlt]
        simp only [Option.getD_none, eq_self_iff_true, if_true,
          resetBucket_of_not_mem s next hne',
          foldl_appendToBucket_last g.2 s next [] hne', List.nil_append]
      have hlen : 1 ≤ g.2.length := List.length_pos.mpr (hne g (by simp))
      have hlt' : ∀ b ∈ s ++ [(next, g.2)], b.1 < next + g.2.length := by
        intro b hb
        rcases List.mem_append.mp hb with hb | hb
        · have := hlt b hb
          omega
        · have hbeq : b = (next, g.2) := by simpa using hb
          rw [hbeq]
          omega
      rw [List.foldl_cons, hstep, msSpecRanks,
        ih _ _ (fun g' hg' => hne g' (List.mem_cons_of_mem _ hg')) hlt']
      simp

/-- `make_standings` is exactly the spec-side contiguous numbering of
the record groups. -/
lemma make_standings_eq_spec (tbl : List (String × (Nat × Nat))) :
    make_standings tbl = msSpecRanks 1 (teams_by_records tbl) := by
  unfold make_standings
  rw [make_standings_foldl_spec _ [] 1 (teams_by_records_nonempty tbl) (by simp)]
  simp

/-! ## The record groups are exactly the table's fibers -/

lemma mem_keys_addToGroups [DecidableEq α] {gs : List (α × List String)}
    {key u : α} {n : String} :
    u ∈ (addToGroups gs key n).map Prod.fst ↔ u ∈ gs.map Prod.fst ∨ u = key := by
  induction gs with
  | nil => simp [addToGroups]
  | cons b rest ih =>
      obtain ⟨k, ns⟩ := b
      rw [addToGroups]
      by_cases hk : k = key
      · rw [if_pos hk]
        subst hk
        simp
        tauto
      · rw [if_neg hk]
        simp only [List.map_cons, List.mem_cons, ih]
        tauto

lemma keys_nodup_addToGroups [DecidableEq α] {gs : List (α × List String)}
    (key : α) (n : String) (h : (gs.map Prod.fst).Nodup) :
    ((addToGroups gs key n).map Prod.fst).Nodup := by
  induction gs with
  | nil => simp [addToGroups]
  | cons b rest ih =>
      obtain ⟨k, ns⟩ := b
      rw [addToGroups]
      by_cases hk : k = key
      · rw [if_pos hk]
        simpa using h
      · rw [if_neg hk]
        simp only [List.map_cons, List.nodup_cons] at h ⊢
        refine ⟨fun hm => ?_, ih h.2⟩
        rcases mem_keys_addToGroups.mp hm with hm | hm
        · exact h.1 hm
        · exact hk hm

lemma keys_nodup_teams_by_records [DecidableEq α] (tbl : List (String × α)) :
    ((teams_by_records tbl).map Prod.fst).Nodup := by
  suffices hgen : ∀ (l : List (String × α)) (acc : List (α × List String)),
      (acc.map Prod.fst).Nodup →
      ((l.foldl (fun gs p => addToGroups gs p.2 p.1) acc).map Prod.fst).Nodup by
    exact hgen tbl [] (by simp)
  intro l
  induction l with
  | nil => exact fun acc h => h
  | cons p rest ih =>
      intro acc h
      exact ih _ (keys_nodup_addToGroups p.2 p.1 h)

lemma lookupD_addToGroups [DecidableEq α] (acc : List (α × List String))
    (key : α) (n : String) (rcd : α) :
    (((addToGroups acc key n).find? (fun g => g.1 = rcd)).map
        (fun g => g.2)).getD [] =
      if key = rcd then
        ((((acc.find? (fun g => g.1 = rcd)).map (fun g => g.2)).getD []) ++ [n])
      else (((acc.find? (fun g => g.1 = rcd)).map (fun g => g.2)).getD []) := by
  induction acc with
  | nil =>
      by_cases hk : key = rcd <;> simp [addToGroups, List.find?, hk]
  | cons b rest ih =>
      obtain ⟨k, ns⟩ := b
      rw [addToGroups]
      by_cases hk : k = key
      · rw [if_pos hk]
        subst hk
        by_cases hr : k = rcd
        · simp [List.find?, hr]
        · simp [List.find?, hr]
      · rw [if_neg hk]
        by_cases hr : k = rcd
        · have hkr : ¬ key = rcd := fun he => hk (hr.trans he.symm)
          simp [List.find?, hr, hkr]
        · simp [List.find?, hr, ih]

lemma lookupD_teams_by_records [DecidableEq α] (tbl : List (String × α))
    (rcd : α) :
    (((teams_by_records tbl).find? (fun g => g.1 = rcd)).map
        (fun g => g.2)).getD [] =
      (tbl.filter (fun p => p.2 = rcd)).map Prod.fst := by
  suffices hgen : ∀ (l : List (String × α)) (acc : List (α × List String)),
      (((l.foldl (fun gs p => addToGroups gs p.2 p.1) acc).find?
          (fun g => g.1 = rcd)).map (fun g => g.2)).getD [] =
        (((acc.find? (fun g => g.1 = rcd)).map (fun g => g.2)).getD []) ++
          (l.filter (fun p => p.2 = rcd)).map Prod.fst by
    simpa [teams_by_records, List.find?] using hgen tbl []
  intro l
  induction l with
  | nil => simp
  | cons p rest ih =>
      intro acc
      rw [List.foldl_cons, ih, lookupD_addToGroups]
      by_cases hp : p.2 = rcd
      · rw [if_pos hp, List.filter_cons_of_pos (by simpa using hp)]
        simp
      · rw [if_neg hp, List.filter_cons_of_neg (by simpa using hp)]

lemma find?_eq_of_mem_nodup_keys [DecidableEq α] {gs : List (α × List String)}
    {rcd : α} {ns : List String} (hnd : (gs.map Prod.fst).Nodup)
    (hm : (rcd, ns) ∈ gs) :
    gs.find? (fun g => g.1 = rcd) = some (rcd, ns) := by
  induction gs with
  | nil => simp at hm
  | cons b rest ih =>
      simp only [List.map_cons, List.nodup_cons] at hnd
      rcases List.mem_cons.mp hm with rfl | hm
      · simp [List.find?]
      · have hb : ¬ b.1 = rcd := by
          intro he
          exact hnd.1 (he ▸ List.mem_map.mpr ⟨(rcd, ns), hm, rfl⟩)
        rw [List.find?_cons_of_neg _ (by simpa using hb)]
        exact ih hnd.2 hm

lemma teams_by_records_group_eq [DecidableEq α] {tbl : List (String × α)}
    {rcd : α} {ns : List String} (h : (rcd, ns) ∈ teams_by_records tbl) :
    ns = (tbl.filter (fun p => p.2 = rcd)).map Prod.fst := by
  have hfind := find?_eq_of_mem_nodup_keys (keys_nodup_teams_by_records tbl) h
  have := lookupD_teams_by_records tbl rcd
  rw [hfind] at this
  simpa using this

/-! ## C5 -/

/-- C5.  `make_standings` groups the table's teams by identical
(wins, losses) record — each group holds exactly the table's teams with
that record, in table order — and numbers the groups by the spec-side
rule `msSpecRanks`: the first bucket gets rank 1, teams sharing a record
share one bucket, and the next distinct record's rank is the previous
rank plus the previous bucket's size (1, 1, 3 — never 1, 1, 2). -/
theorem make_standings_rank_numbering :
    (∀ tbl : List (String × (Nat × Nat)),
        make_standings tbl = msSpecRanks 1 (teams_by_records tbl)) ∧
    (∀ (tbl : List (String × (Nat × Nat))) (rcd : Nat × Nat) (ns : List String),
        (rcd, ns) ∈ teams_by_records tbl →
        ns = (tbl.filter (fun p => p.2 = rcd)).map Prod.fst) :=
  ⟨make_standings_eq_spec, fun _ _ _ h => teams_by_records_group_eq h⟩

/-- Witness for C5 on the five-team table (records (2,2) and (1,1)). -/
theorem make_standings_rank_numbering_witness :
    make_standings (table exTeams) =
        msSpecRanks 1 (teams_by_records (table exTeams)) ∧
      ["A", "B", "C"] =
        ((table exTeams).filter (fun p => p.2 = (2, 2))).map Prod.fst :=
  ⟨make_standings_rank_numbering.1 (table exTeams),
    make_standings_rank_numbering.2 (table exTeams) (2, 2) ["A", "B", "C"]
      (by decide)⟩

/-! ## Tracking a team's rank through the mutation primitives (C8, C9) -/

lemma mem_namesOf_of_mem_bucket {s : List (α × List String)} {k : α}
    {ts : List String} {u : String} (hb : (k, ts) ∈ s) (hu : u ∈ ts) :
    u ∈ namesOf s := by
  simp only [namesOf, List.mem_flatMap]
  exact ⟨(k, ts), hb, hu⟩

lemma rankOf_cons (b : Nat × List String) (rest : Standings) (u : String) :
    rankOf (b :: rest) u = if u ∈ b.2 then some b.1 else rankOf rest u := by
  by_cases hu : u ∈ b.2
  · rw [if_pos hu, rankOf, List.find?_cons_of_pos _ (by simpa using hu)]
    rfl
  · rw [if_neg hu, rankOf, List.find?_cons_of_neg _ (by simpa using hu)]
    rfl

lemma rankOf_eq_none_iff {s : Standings} {u : String} :
    rankOf s u = none ↔ u ∉ namesOf s := by
  induction s with
  | nil => simp [rankOf, namesOf]
  | cons b rest ih =>
      rw [rankOf_cons, namesOf_cons]
      by_cases hu : u ∈ b.2
      · simp [hu]
      · simp [hu, ih]

lemma rankOf_eq_some_of_count_le_one {s : Standings} {u : String} {k : Nat}
    {ts : List String} (hcnt : (namesOf s).count u ≤ 1)
    (hb : (k, ts) ∈ s) (hu : u ∈ ts) : rankOf s u = some k := by
  induction s with
  | nil => simp at hb
  | cons b rest ih =>
      rw [rankOf_cons]
      rcases List.mem_cons.mp hb with rfl | hbr
      · rw [if_pos hu]
      · by_cases hub : u ∈ b.2
        · exfalso
          have h1 : 1 ≤ b.2.count u := List.one_le_count_iff.mpr hub
          have h2 : 1 ≤ (namesOf rest).count u :=
            List.one_le_count_iff.mpr (mem_namesOf_of_mem_bucket hbr hu)
          rw [namesOf_cons, List.count_append] at hcnt
          omega
        · rw [if_neg hub]
          rw [namesOf_cons, List.count_append] at hcnt
          exact ih (by omega) hbr

lemma rankOf_eq_some_exists {s : Standings} {u : String} {k : Nat}
    (h : rankOf s u = some k) : ∃ ts, (k, ts) ∈ s ∧ u ∈ ts := by
  induction s with
  | nil => simp [rankOf] at h
  | cons b rest ih =>
      rw [rankOf_cons] at h
      by_cases hu : u ∈ b.2
      · rw [if_pos hu] at h
        exact ⟨b.2, by simp [← Option.some_inj.mp h], hu⟩
      · rw [if_neg hu] at h
        obtain ⟨ts, hts, hmem⟩ := ih h
        exact ⟨ts, List.mem_cons_of_mem _ hts, hmem⟩

lemma rankOf_perm {s₁ s₂ : Standings} {u : String} (hp : s₁ ~ s₂)
    (hcnt : (namesOf s₁).count u ≤ 1) : rankOf s₁ u = rankOf s₂ u := by
  rcases h1 : rankOf s₁ u with _ | k
  · have hn : u ∉ namesOf s₂ :=
      fun hm => rankOf_eq_none_iff.mp h1
        ((namesOf_perm_of_perm hp).mem_iff.mpr hm)
    exact (rankOf_eq_none_iff.mpr hn).symm
  · obtain ⟨ts, hts, hmem⟩ := rankOf_eq_some_exists h1
    exact (rankOf_eq_some_of_count_le_one
      (by rw [← (namesOf_perm_of_perm hp).count_eq]; exact hcnt)
      (hp.mem_iff.mp hts) hmem).symm

lemma rankOf_remove_ne {s : Standings} {t u : String} (h : u ≠ t) :
    rankOf (remove_team_from_standings t s) u = rankOf s u := by
  induction s with
  | nil => rfl
  | cons b rest ih =>
      obtain ⟨r, ts⟩ := b
      rw [remove_team_from_standings]
      by_cases ht : t ∈ ts
      · rw [if_pos ht]
        by_cases hu : u ∈ ts
        · have hue : u ∈ ts.erase t := (List.mem_erase_of_ne h).mpr hu
          have hne : ts.erase t ≠ [] := by
            intro he
            rw [he] at hue
            simp at hue
          rw [if_neg hne, rankOf_cons, rankOf_cons]
          simp only [if_pos hue, if_pos hu]
        · have hue : u ∉ ts.erase t := fun hm => hu (List.mem_of_mem_erase hm)
          by_cases hne : ts.erase t = []
          · rw [if_pos hne, rankOf_cons, if_neg hu]
          · rw [if_neg hne, rankOf_cons, rankOf_cons]
            simp only [if_neg hue, if_neg hu]
      · rw [if_neg ht, rankOf_cons, rankOf_cons, ih]

lemma rankOf_appendToBucket_ne {s : Standings} {t u : String} (k : Nat)
    (h : u ≠ t) : rankOf (appendToBucket s k t) u = rankOf s u := by
  induction s with
  | nil =>
      rw [appendToBucket, rankOf_cons]
      simp [h, rankOf]
  | cons b rest ih =>
      obtain ⟨r, ts⟩ := b
      rw [appendToBucket]
      by_cases hr : r = k
      · rw [if_pos hr, rankOf_cons, rankOf_cons]
        have : u ∈ ts ++ [t] ↔ u ∈ ts := by simp [h]
        simp only [this]
      · rw [if_neg hr, rankOf_cons, rankOf_cons, ih]

lemma rankOf_appendToBucket_self {s : Standings} {t : String} (k : Nat)
    (h : t ∉ namesOf s) : rankOf (appendToBucket s k t) t = some k := by
  induction s with
  | nil =>
      rw [appendToBucket, rankOf_cons]
      simp
  | cons b rest ih =>
      obtain ⟨r, ts⟩ := b
      rw [namesOf_cons] at h
      have hts : t ∉ ts := fun hm => h (by simp [hm])
      rw [appendToBucket]
      by_cases hr : r = k
      · rw [if_pos hr, rankOf_cons]
        simp [hr]
      · rw [if_neg hr, rankOf_cons, if_neg hts]
        exact ih (fun hm => h (by simp [hm]))

lemma rankOf_set_ne {s : Standings} {t u : String} (k : Nat) (h : u ≠ t)
    (hcnt : (namesOf s).count u ≤ 1) :
    rankOf (set_standing_for_team t k s) u = rankOf s u := by
  unfold set_standing_for_team
  have hc2 : (namesOf (appendToBucket (remove_team_from_standings t s) k t)).count u ≤ 1 := by
    rw [(namesOf_appendToBucket _ _ _).count_eq, List.count_cons,
      namesOf_remove, if_neg (fun hb => h ((beq_iff_eq.mp hb).symm)),
      List.count_erase_of_ne h]
    omega
  rw [rankOf_perm (sortByRank_perm _) (by
      rw [(namesOf_perm_of_perm (sortByRank_perm _)).count_eq]
      exact hc2),
    rankOf_appendToBucket_ne k h, rankOf_remove_ne h]

lemma rankOf_set_self {s : Standings} {t : String} (k : Nat)
    (hcnt : (namesOf s).count t ≤ 1) :
    rankOf (set_standing_for_team t k s) t = some k := by
  unfold set_standing_for_team
  have hrm : t ∉ namesOf (remove_team_from_standings t s) := by
    rw [namesOf_remove]
    intro hm
    have := List.count_erase_self t (namesOf s)
    have h1 : 1 ≤ ((namesOf s).erase t).count t := List.one_le_count_iff.mpr hm
    omega
  have hc2 : (namesOf (appendToBucket (remove_team_from_standings t s) k t)).count t ≤ 1 := by
    rw [(namesOf_appendToBucket _ _ _).count_eq, List.count_cons]
    have h0 : (namesOf (remove_team_from_standings t s)).count t = 0 :=
      List.count_eq_zero.mpr hrm
    simp [h0]
  rw [rankOf_perm (sortByRank_perm _) (by
      rw [(namesOf_perm_of_perm (sortByRank_perm _)).count_eq]
      exact hc2)]
  exact rankOf_appendToBucket_self k hrm

/-- The combined move of the apply-loop: remove, then set. -/
lemma rankOf_move_ne {s : Standings} {t u : String} (k : Nat) (h : u ≠ t)
    (hcnt : (namesOf s).count u ≤ 1) :
    rankOf (set_standing_for_team t k (remove_team_from_standings t s)) u =
      rankOf s u := by
  rw [rankOf_set_ne k h (by
      rw [namesOf_remove, List.count_erase_of_ne h]
      exact hcnt),
    rankOf_remove_ne h]

lemma rankOf_move_self {s : Standings} {t : String} (k : Nat)
    (hcnt : (namesOf s).count t ≤ 1) :
    rankOf (set_standing_for_team t k (remove_team_from_standings t s)) t =
      some k := by
  rw [rankOf_set_self k (by
      rw [namesOf_remove]
      have := List.count_erase_self t (namesOf s)
      omega)]

lemma bucket_unique {s : Standings} (hnd : (namesOf s).Nodup) :
    ∀ {r : Nat} {b : List String} {r' : Nat} {b' : List String} {t : String},
      (r, b) ∈ s → (r', b') ∈ s → t ∈ b → t ∈ b' → r = r' ∧ b = b' := by
  induction s with
  | nil => intro r b r' b' t h; simp at h
  | cons c rest ih =>
      intro r b r' b' t h1 h2 hm1 hm2
      rw [namesOf_cons, List.nodup_append] at hnd
      rcases List.mem_cons.mp h1 with rfl | h1r
      · rcases List.mem_cons.mp h2 with heq | h2r
        · have := congrArg Prod.fst heq
          have := congrArg Prod.snd heq
          simp_all
        · exact absurd (mem_namesOf_of_mem_bucket h2r hm2)
            (hnd.2.2 hm1)
      · rcases List.mem_cons.mp h2 with rfl | h2r
        · exact absurd (mem_namesOf_of_mem_bucket h1r hm1)
            (hnd.2.2 hm2)
        · exact ih hnd.2.1 h1r h2r hm1 hm2

/-! ## Rank effects of the apply-loop -/

lemma namesOf_innerMoves {names : List String} (hnd : names.Nodup)
    (q rank : Nat) :
    ∀ (ts : List String) (s : Standings), namesOf s ~ names →
      (∀ t ∈ ts, t ∈ names) →
      namesOf (ts.foldl
        (fun cur2 tn =>
          if q = 0 then cur2
          else set_standing_for_team tn (rank + q)
            (remove_team_from_standings tn cur2)) s) ~ names := by
  intro ts
  induction ts with
  | nil => exact fun s hs _ => hs
  | cons t ts' ih =>
      intro s hs hin
      simp only [List.foldl_cons]
      by_cases hq : q = 0
      · rw [if_pos hq]
        exact ih _ hs (fun u hu => hin u (List.mem_cons_of_mem t hu))
      · rw [if_neg hq]
        exact ih _
          (namesOf_move_step hnd hs t _ (hin t (List.mem_cons_self t ts')))
          (fun u hu => hin u (List.mem_cons_of_mem t hu))

lemma rankOf_innerMoves_frame {names : List String} (hnd : names.Nodup)
    {u : String} (q rank : Nat) :
    ∀ (ts : List String) (s : Standings), namesOf s ~ names →
      (∀ t ∈ ts, t ∈ names) → (q = 0 ∨ u ∉ ts) →
      rankOf (ts.foldl
        (fun cur2 tn =>
          if q = 0 then cur2
          else set_standing_for_team tn (rank + q)
            (remove_team_from_standings tn cur2)) s) u = rankOf s u := by
  intro ts
  induction ts with
  | nil => exact fun s _ _ _ => rfl
  | cons t ts' ih =>
      intro s hs hin hu
      simp only [List.foldl_cons]
      by_cases hq : q = 0
      · rw [if_pos hq]
        exact ih _ hs (fun v hv => hin v (List.mem_cons_of_mem t hv))
          (Or.inl hq)
      · rw [if_neg hq]
        have hu' : u ∉ t :: ts' := hu.resolve_left hq
        have hut : u ≠ t := fun he => hu' (he ▸ List.mem_cons_self t ts')
        have hcnt : (namesOf s).count u ≤ 1 := by
          rw [hs.count_eq]
          exact List.nodup_iff_count_le_one.mp hnd u
        rw [ih _
          (namesOf_move_step hnd hs t _ (hin t (List.mem_cons_self t ts')))
          (fun v hv => hin v (List.mem_cons_of_mem t hv))
          (Or.inr (fun hm => hu' (List.mem_cons_of_mem t hm))),
          rankOf_move_ne _ hut hcnt]

lemma rankOf_innerMoves_hold {names : List String} (hnd : names.Nodup)
    {u : String} {q : Nat} (rank : Nat) (hq : q ≠ 0) :
    ∀ (ts : List String) (s : Standings), namesOf s ~ names →
      (∀ t ∈ ts, t ∈ names) → rankOf s u = some (rank + q) →
      rankOf (ts.foldl
        (fun cur2 tn =>
          if q = 0 then cur2
          else set_standing_for_team tn (rank + q)
            (remove_team_from_standings tn cur2)) s) u = some (rank + q) := by
  intro ts
  induction ts with
  | nil => exact fun s _ _ h => h
  | cons t ts' ih =>
      intro s hs hin hr
      simp only [List.foldl_cons]
      rw [if_neg hq]
      have hperm' := namesOf_move_step hnd hs t (rank + q)
        (hin t (List.mem_cons_self t ts'))
      by_cases hut : u = t
      · subst hut
        have hcnt : (namesOf s).count u ≤ 1 := by
          rw [hs.count_eq]
          exact List.nodup_iff_count_le_one.mp hnd u
        exact ih _ hperm' (fun v hv => hin v (List.mem_cons_of_mem _ hv))
          (rankOf_move_self _ hcnt)
      · have hcnt : (namesOf s).count u ≤ 1 := by
          rw [hs.count_eq]
          exact List.nodup_iff_count_le_one.mp hnd u
        exact ih _ hperm' (fun v hv => hin v (List.mem_cons_of_mem _ hv))
          (by rw [rankOf_move_ne _ hut hcnt]; exact hr)

lemma rankOf_innerMoves_sets {names : List String} (hnd : names.Nodup)
    {u : String} {q : Nat} (rank : Nat) (hq : q ≠ 0) :
    ∀ (ts : List String) (s : Standings), namesOf s ~ names →
      (∀ t ∈ ts, t ∈ names) → u ∈ ts →
      rankOf (ts.foldl
        (fun cur2 tn =>
          if q = 0 then cur2
          else set_standing_for_team tn (rank + q)
            (remove_team_from_standings tn cur2)) s) u = some (rank + q) := by
  intro ts
  induction ts with
  | nil => intro s _ _ h; simp at h
  | cons t ts' ih =>
      intro s hs hin hu
      simp only [List.foldl_cons]
      rw [if_neg hq]
      have hperm' := namesOf_move_step hnd hs t (rank + q)
        (hin t (List.mem_cons_self t ts'))
      by_cases hut : u = t
      · subst hut
        have hcnt : (namesOf s).count u ≤ 1 := by
          rw [hs.count_eq]
          exact List.nodup_iff_count_le_one.mp hnd u
        exact rankOf_innerMoves_hold hnd rank hq ts' _ hperm'
          (fun v hv => hin v (List.mem_cons_of_mem _ hv))
          (rankOf_move_self _ hcnt)
      · have hu' : u ∈ ts' := by
          rcases List.mem_cons.mp hu with he | hm
          · exact absurd he hut
          · exact hm
        exact ih _ hperm' (fun v hv => hin v (List.mem_cons_of_mem _ hv)) hu'

lemma rankOf_applyPlacings_frame {names : List String} (hnd : names.Nodup)
    {u : String} (rank : Nat) :
    ∀ (placings : List (Nat × List String)) (s : Standings),
      namesOf s ~ names → (∀ pr ∈ placings, ∀ t ∈ pr.2, t ∈ names) →
      (∀ pr ∈ placings, pr.1 ≠ 0 → u ∉ pr.2) →
      rankOf (applyPlacings rank placings s) u = rankOf s u := by
  intro placings
  induction placings with
  | nil => exact fun s _ _ _ => rfl
  | cons pr rest ih =>
      intro s hs hsub hu
      unfold applyPlacings
      rw [List.foldl_cons]
      have hperm' := namesOf_innerMoves hnd pr.1 rank pr.2 s hs
        (fun t ht => hsub pr (List.mem_cons_self pr rest) t ht)
      have hframe := rankOf_innerMoves_frame hnd pr.1 rank pr.2 s hs
        (fun t ht => hsub pr (List.mem_cons_self pr rest) t ht)
        (by
          by_cases hq : pr.1 = 0
          · exact Or.inl hq
          · exact Or.inr (hu pr (List.mem_cons_self pr rest) hq))
      have ihres := ih _ hperm'
        (fun q hq t ht => hsub q (List.mem_cons_of_mem pr hq) t ht)
        (fun q hq hq0 => hu q (List.mem_cons_of_mem pr hq) hq0)
      unfold applyPlacings at ihres
      rw [ihres, hframe]

lemma rankOf_applyPlacings_stable {names : List String} (hnd : names.Nodup)
    {u : String} {p : Nat} (rank : Nat) :
    ∀ (placings : List (Nat × List String)) (s : Standings),
      namesOf s ~ names → (∀ pr ∈ placings, ∀ t ∈ pr.2, t ∈ names) →
      (∀ pr ∈ placings, pr.1 ≠ 0 → u ∈ pr.2 → pr.1 = p) →
      rankOf s u = some (rank + p) →
      rankOf (applyPlacings rank placings s) u = some (rank + p) := by
  intro placings
  induction placings with
  | nil => exact fun s _ _ _ h => h
  | cons pr rest ih =>
      intro s hs hsub hcompat hr
      unfold applyPlacings
      rw [List.foldl_cons]
      have hsubpr : ∀ t ∈ pr.2, t ∈ names :=
        fun t ht => hsub pr (List.mem_cons_self pr rest) t ht
      have hperm' := namesOf_innerMoves hnd pr.1 rank pr.2 s hs hsubpr
      have hstep : rankOf (pr.2.foldl
          (fun cur2 tn =>
            if pr.1 = 0 then cur2
            else set_standing_for_team tn (rank + pr.1)
              (remove_team_from_standings tn cur2)) s) u = some (rank + p) := by
        by_cases hq : pr.1 = 0
        · rw [rankOf_innerMoves_frame hnd pr.1 rank pr.2 s hs hsubpr (Or.inl hq)]
          exact hr
        · by_cases hup : u ∈ pr.2
          · have hpq : pr.1 = p := hcompat pr (List.mem_cons_self pr rest) hq hup
            rw [← hpq]
            exact rankOf_innerMoves_sets hnd rank hq pr.2 s hs hsubpr hup
          · rw [rankOf_innerMoves_frame hnd pr.1 rank pr.2 s hs hsubpr (Or.inr hup)]
            exact hr
      have ihres := ih _ hperm'
        (fun q hq t ht => hsub q (List.mem_cons_of_mem pr hq) t ht)
        (fun q hq hq0 hqu => hcompat q (List.mem_cons_of_mem pr hq) hq0 hqu)
        hstep
      unfold applyPlacings at ihres
      exact ihres

lemma rankOf_applyPlacings_moved {names : List String} (hnd : names.Nodup)
    {u : String} {p : Nat} (rank : Nat) (hp : p ≠ 0) :
    ∀ (placings : List (Nat × List String)) (s : Standings),
      namesOf s ~ names → (∀ pr ∈ placings, ∀ t ∈ pr.2, t ∈ names) →
      (∀ pr ∈ placings, pr.1 ≠ 0 → u ∈ pr.2 → pr.1 = p) →
      (∃ ts0, (p, ts0) ∈ placings ∧ u ∈ ts0) →
      rankOf (applyPlacings rank placings s) u = some (rank + p) := by
  intro placings
  induction placings with
  | nil =>
      rintro s _ _ _ ⟨ts0, hmem, _⟩
      simp at hmem
  | cons pr rest ih =>
      rintro s hs hsub hcompat ⟨ts0, hmem, hu0⟩
      have hsubpr : ∀ t ∈ pr.2, t ∈ names :=
        fun t ht => hsub pr (List.mem_cons_self pr rest) t ht
      have hperm' := namesOf_innerMoves hnd pr.1 rank pr.2 s hs hsubpr
      by_cases hcase : pr.1 ≠ 0 ∧ u ∈ pr.2
      · -- the head pair moves u; the rest keeps it
        unfold applyPlacings
        rw [List.foldl_cons]
        have hpq : pr.1 = p := hcompat pr (List.mem_cons_self pr rest)
          hcase.1 hcase.2
        have hset : rankOf (pr.2.foldl
            (fun cur2 tn =>
              if pr.1 = 0 then cur2
              else set_standing_for_team tn (rank + pr.1)
                (remove_team_from_standings tn cur2)) s) u = some (rank + p) := by
          rw [← hpq]
          exact rankOf_innerMoves_sets hnd rank hcase.1 pr.2 s hs hsubpr hcase.2
        have := rankOf_applyPlacings_stable hnd rank rest _ hperm'
          (fun q hq t ht => hsub q (List.mem_cons_of_mem pr hq) t ht)
          (fun q hq hq0 hqu => hcompat q (List.mem_cons_of_mem pr hq) hq0 hqu)
          hset
        unfold applyPlacings at this
        exact this
      · -- u is untouched by the head pair and moved later
        have hmem' : (p, ts0) ∈ rest := by
          rcases List.mem_cons.mp hmem with rfl | hm
          · exact absurd ⟨hp, hu0⟩ hcase
          · exact hm
        unfold applyPlacings
        rw [List.foldl_cons]
        have := ih _ hperm'
          (fun q hq t ht => hsub q (List.mem_cons_of_mem pr hq) t ht)
          (fun q hq hq0 hqu => hcompat q (List.mem_cons_of_mem pr hq) hq0 hqu)
          ⟨ts0, hmem', hu0⟩
        unfold applyPlacings at this
        exact this

/-! ## What the placing routine computes on non-empty win groups -/

lemma insertGroupDesc_perm (g : Nat × List String)
    (gs : List (Nat × List String)) : insertGroupDesc g gs ~ g :: gs := by
  induction gs with
  | nil => rfl
  | cons c cs ih =>
      rw [insertGroupDesc]
      by_cases hc : g.1 > c.1
      · rw [if_pos hc]
      · rw [if_neg hc]
        exact (ih.cons c).trans (List.Perm.swap g c cs)

lemma sortGroupsDesc_perm (gs : List (Nat × List String)) :
    sortGroupsDesc gs ~ gs := by
  suffices h : ∀ (l acc : List (Nat × List String)),
      l.foldl (fun a g => insertGroupDesc g a) acc ~ acc ++ l by
    simpa [sortGroupsDesc] using h gs []
  intro l
  induction l with
  | nil => simp
  | cons g rest ih =>
      intro acc
      rw [List.foldl_cons]
      exact (ih _).trans
        ((((insertGroupDesc_perm g acc).append_right rest).trans
          List.perm_middle.symm).trans (by simp))

lemma bucketFor_cons (b : Nat × List String) (rest : Standings) (k : Nat) :
    bucketFor (b :: rest) k =
      if b.1 = k then some b.2 else bucketFor rest k := by
  by_cases hb : b.1 = k
  · rw [if_pos hb, bucketFor, List.find?_cons_of_pos _ (by simpa using hb)]
    rfl
  · rw [if_neg hb, bucketFor, List.find?_cons_of_neg _ (by simpa using hb)]
    rfl

lemma bucketFor_last (s : Standings) (k : Nat) (x : List String)
    (h : ∀ b ∈ s, b.1 ≠ k) : bucketFor (s ++ [(k, x)]) k = some x := by
  induction s with
  | nil => simp [bucketFor_cons]
  | cons b rest ih =>
      rw [List.cons_append, bucketFor_cons, if_neg (h b (by simp))]
      exact ih (fun c hc => h c (List.mem_cons_of_mem _ hc))

lemma ptir_inner_skip (rank : Nat) (ts : List String) (acc2 : Standings × Nat)
    (hne : ¬ (bucketFor acc2.1 rank).getD [] = []) :
    ts.foldl
      (fun acc2 team =>
        if (bucketFor acc2.1 rank).getD [] = [] then
          (appendToBucket (resetBucket acc2.1 rank) rank team, acc2.2 + 1)
        else acc2) acc2 = acc2 := by
  induction ts with
  | nil => rfl
  | cons t ts' ih =>
      rw [List.foldl_cons, if_neg hne]
      exact ih

lemma ptir_foldl_spec :
    ∀ (l : List (Nat × List String)) (s : Standings) (next : Nat),
      (∀ g ∈ l, g.2 ≠ []) → (∀ b ∈ s, b.1 < next) →
      (l.foldl
        (fun acc g =>
          let rank := acc.2
          g.2.foldl
            (fun acc2 team =>
              if (bucketFor acc2.1 rank).getD [] = [] then
                (appendToBucket (resetBucket acc2.1 rank) rank team, acc2.2 + 1)
              else acc2) acc) (s, next)).1 = s ++ ptirAux next l := by
  intro l
  induction l with
  | nil =>
      intro s next _ _
      simp [ptirAux]
  | cons g rest ih =>
      intro s next hne hlt
      obtain ⟨w, ts⟩ := g
      rcases hts : ts with _ | ⟨t, ts'⟩
      · exact absurd (hts ▸ hne (w, ts) (by simp)) (by simp [hts])
      · rw [List.foldl_cons]
        have hne' : ∀ b ∈ s, b.1 ≠ next := fun b hb => Nat.ne_of_lt (hlt b hb)
        have hguard : (bucketFor s next).getD [] = [] := by
          rw [bucketFor_eq_none_of_lt s next hlt]
          rfl
        have hinner :
            ((t :: ts').foldl
              (fun acc2 team =>
                if (bucketFor acc2.1 next).getD [] = [] then
                  (appendToBucket (resetBucket acc2.1 next) next team, acc2.2 + 1)
                else acc2) (s, next)) = (s ++ [(next, [t])], next + 1) := by
          rw [List.foldl_cons, if_pos hguard,
            resetBucket_of_not_mem s next hne']
          have happ : appendToBucket (s ++ [(next, [])]) next t =
              s ++ [(next, [t])] := appendToBucket_last s next [] t hne'
          rw [happ]
          exact ptir_inner_skip next ts' (s ++ [(next, [t])], next + 1)
            (by rw [bucketFor_last s next [t] hne']; simp)
        show ((rest.foldl _ ((t :: ts').foldl
            (fun acc2 team =>
              if (bucketFor acc2.1 next).getD [] = [] then
                (appendToBucket (resetBucket acc2.1 next) next team, acc2.2 + 1)
              else acc2) (s, next)))).1 = _
        rw [hinner,
          ih (s ++ [(next, [t])]) (next + 1)
            (fun g' hg' => hne g' (List.mem_cons_of_mem _ hg'))
            (by
              intro b hb
              rcases List.mem_append.mp hb with hb | hb
              · have := hlt b hb
                omega
              · have hbeq : b = (next, [t]) := by simpa using hb
                rw [hbeq]
                omega)]
        simp [ptirAux, hts]

/-- On non-empty win groups (always the case for `teams_by_records`
output) the placing routine returns exactly: the first team of each
descending-sorted group, one group per key counting up from the start
rank. -/
lemma place_teams_in_rankings_eq (gs : List (Nat × List String)) (n0 : Nat)
    (hne : ∀ g ∈ gs, g.2 ≠ []) :
    place_teams_in_rankings gs n0 = ptirAux n0 (sortGroupsDesc gs) := by
  unfold place_teams_in_rankings
  rw [ptir_foldl_spec (sortGroupsDesc gs) [] n0
    (fun g hg => hne g ((sortGroupsDesc_perm gs).mem_iff.mp hg)) (by simp)]
  simp

lemma mem_ptirAux {n : Nat} {l : List (Nat × List String)} {p : Nat}
    {ts : List String} (h : (p, ts) ∈ ptirAux n l) :
    n ≤ p ∧ p < n + l.length ∧ ∃ g ∈ l, ts = g.2.take 1 := by
  induction l generalizing n with
  | nil => simp [ptirAux] at h
  | cons g rest ih =>
      rw [ptirAux] at h
      rcases List.mem_cons.mp h with heq | hm
      · have h1 : p = n := congrArg Prod.fst heq
        have h2 : ts = g.2.take 1 := congrArg Prod.snd heq
        exact ⟨by omega, by simp [h1], g, by simp, h2⟩
      · obtain ⟨hn, hlt, g', hg', hts⟩ := ih hm
        exact ⟨by omega, by simp at hlt ⊢; omega, g',
          List.mem_cons_of_mem _ hg', hts⟩

lemma ptirAux_placing_unique {u : String} :
    ∀ {l : List (Nat × List String)} {n p₁ p₂ : Nat} {ts₁ ts₂ : List String},
      (namesOf l).Nodup → (p₁, ts₁) ∈ ptirAux n l → (p₂, ts₂) ∈ ptirAux n l →
      u ∈ ts₁ → u ∈ ts₂ → p₁ = p₂ := by
  intro l
  induction l with
  | nil =>
      intro n p₁ p₂ ts₁ ts₂ _ h
      simp [ptirAux] at h
  | cons g rest ih =>
      intro n p₁ p₂ ts₁ ts₂ hnd h1 h2 hu1 hu2
      rw [namesOf_cons, List.nodup_append] at hnd
      rw [ptirAux] at h1 h2
      have htail : ∀ {p : Nat} {ts : List String},
          (p, ts) ∈ ptirAux (n + 1) rest → u ∈ ts → u ∈ namesOf rest := by
        intro p ts hm hu
        obtain ⟨_, _, g', hg', hts⟩ := mem_ptirAux hm
        subst hts
        exact mem_namesOf_of_mem_bucket
          (show (g'.1, g'.2) ∈ rest by simpa using hg') (List.mem_of_mem_take hu)
      rcases List.mem_cons.mp h1 with he1 | hm1 <;>
        rcases List.mem_cons.mp h2 with he2 | hm2
      · simp only [Prod.mk.injEq] at he1 he2
        rw [he1.1, he2.1]
      · exfalso
        simp only [Prod.mk.injEq] at he1
        exact hnd.2.2 (List.mem_of_mem_take (he1.2 ▸ hu1)) (htail hm2 hu2)
      · exfalso
        simp only [Prod.mk.injEq] at he2
        exact hnd.2.2 (List.mem_of_mem_take (he2.2 ▸ hu2)) (htail hm1 hu1)
      · exact ih hnd.2.1 hm1 hm2 hu1 hu2

lemma length_le_namesOf_length {gs : List (α × List String)}
    (hne : ∀ g ∈ gs, g.2 ≠ []) : gs.length ≤ (namesOf gs).length := by
  induction gs with
  | nil => simp
  | cons g rest ih =>
      rw [namesOf_cons, List.length_append, List.length_cons]
      have h1 : 1 ≤ g.2.length := List.length_pos.mpr (hne g (by simp))
      have h2 := ih (fun g' hg' => hne g' (List.mem_cons_of_mem _ hg'))
      omega

/-! ## Rank effects of one bucket's head-to-head processing -/

lemma namesOf_metric_groups (f : String → Nat) (bucket : List String) :
    namesOf (teams_by_records (bucket.map (fun tn => (tn, f tn)))) ~ bucket := by
  refine (namesOf_teams_by_records _).trans ?_
  rw [List.map_map]
  have hcomp : (Prod.fst ∘ fun tn : String => (tn, f tn)) = fun tn => tn := rfl
  rw [hcomp, List.map_id']

lemma placings_teams_mem_bucket {f : String → Nat} {bucket : List String}
    {pr : Nat × List String} {t : String}
    (hpr : pr ∈ place_teams_in_rankings
      (teams_by_records (bucket.map (fun tn => (tn, f tn)))) 0)
    (ht : t ∈ pr.2) : t ∈ bucket := by
  have h1 : t ∈ namesOf (place_teams_in_rankings
      (teams_by_records (bucket.map (fun tn => (tn, f tn)))) 0) := by
    simp only [namesOf, List.mem_flatMap]
    exact ⟨pr, hpr, ht⟩
  exact (namesOf_metric_groups f bucket).mem_iff.mp
    (mem_namesOf_place_teams_in_rankings h1)

lemma solveMetric_frame {names : List String} (hnd : names.Nodup)
    (f : String → Nat) (rank : Nat) (bucket : List String) (s : Standings)
    (hperm : namesOf s ~ names) (hbsub : ∀ t ∈ bucket, t ∈ names)
    {u : String} (hu : u ∉ bucket) :
    rankOf (applyPlacings rank (place_teams_in_rankings
      (teams_by_records (bucket.map (fun tn => (tn, f tn)))) 0) s) u =
      rankOf s u := by
  refine rankOf_applyPlacings_frame hnd rank _ s hperm ?_ ?_
  · exact fun pr hpr t ht => hbsub t (placings_teams_mem_bucket hpr ht)
  · exact fun pr hpr _ hmem => hu (placings_teams_mem_bucket hpr hmem)

lemma namesOf_solveMetric {names : List String} (hnd : names.Nodup)
    (f : String → Nat) (rank : Nat) (bucket : List String) (s : Standings)
    (hperm : namesOf s ~ names) (hbsub : ∀ t ∈ bucket, t ∈ names) :
    namesOf (applyPlacings rank (place_teams_in_rankings
      (teams_by_records (bucket.map (fun tn => (tn, f tn)))) 0) s) ~ names :=
  namesOf_applyPlacings hnd rank _ s hperm
    (fun _ hpr t ht => hbsub t (placings_teams_mem_bucket hpr ht))

lemma solveMetric_range {names : List String} (hnd : names.Nodup)
    (f : String → Nat) (rank : Nat) (bucket : List String) (s : Standings)
    (hperm : namesOf s ~ names) (hbsub : ∀ t ∈ bucket, t ∈ names)
    (hbnd : bucket.Nodup) {u : String} (hu : u ∈ bucket)
    (hr : rankOf s u = some rank) :
    ∃ k, rankOf (applyPlacings rank (place_teams_in_rankings
        (teams_by_records (bucket.map (fun tn => (tn, f tn)))) 0) s) u = some k ∧
      rank ≤ k ∧ k < rank + bucket.length := by
  have hne : ∀ g ∈ teams_by_records (bucket.map (fun tn => (tn, f tn))),
      g.2 ≠ [] := teams_by_records_nonempty _
  have heq := place_teams_in_rankings_eq
    (teams_by_records (bucket.map (fun tn => (tn, f tn)))) 0 hne
  have hsortperm : namesOf (sortGroupsDesc
      (teams_by_records (bucket.map (fun tn => (tn, f tn))))) ~ bucket :=
    (namesOf_perm_of_perm (sortGroupsDesc_perm _)).trans
      (namesOf_metric_groups f bucket)
  have hsortnd : (namesOf (sortGroupsDesc
      (teams_by_records (bucket.map (fun tn => (tn, f tn)))))).Nodup :=
    hsortperm.nodup_iff.mpr hbnd
  have hsub' : ∀ pr ∈ place_teams_in_rankings
      (teams_by_records (bucket.map (fun tn => (tn, f tn)))) 0,
      ∀ t ∈ pr.2, t ∈ names :=
    fun pr hpr t ht => hbsub t (placings_teams_mem_bucket hpr ht)
  by_cases hex : ∃ p ts0, (p, ts0) ∈ place_teams_in_rankings
      (teams_by_records (bucket.map (fun tn => (tn, f tn)))) 0 ∧
      u ∈ ts0 ∧ p ≠ 0
  · obtain ⟨p, ts0, hpmem, hu0, hp0⟩ := hex
    have hplt : p < bucket.length := by
      rw [heq] at hpmem
      obtain ⟨_, hplt, _⟩ := mem_ptirAux hpmem
      have hlen1 := (sortGroupsDesc_perm
        (teams_by_records (bucket.map (fun tn => (tn, f tn))))).length_eq
      have hlen2 := length_le_namesOf_length hne
      have hlen3 := (namesOf_metric_groups f bucket).length_eq
      omega
    refine ⟨rank + p, ?_, by omega, by omega⟩
    refine rankOf_applyPlacings_moved hnd rank hp0 _ s hperm hsub' ?_
      ⟨ts0, hpmem, hu0⟩
    intro pr hpr hq hupr
    rw [heq] at hpmem hpr
    exact ptirAux_placing_unique hsortnd
      (show (pr.1, pr.2) ∈ _ by simpa using hpr) hpmem hupr hu0
  · push_neg at hex
    refine ⟨rank, ?_, le_refl _, ?_⟩
    · rw [rankOf_applyPlacings_frame hnd rank _ s hperm hsub'
        (fun pr hpr hq hmem =>
          hq (hex pr.1 pr.2 (by simpa using hpr) hmem))]
      exact hr
    · have h1 : 1 ≤ bucket.length :=
        List.length_pos.mpr (fun he => by simp [he] at hu)
      omega

lemma solveBucketH2h_frame {names : List String} (hnd : names.Nodup)
    (teams : List Team) (rank : Nat) (bucket : List String) (s : Standings)
    (hperm : namesOf s ~ names) (hbsub : ∀ t ∈ bucket, t ∈ names)
    {u : String} (hu : u ∉ bucket) :
    rankOf (solveBucketH2h teams rank bucket s) u = rankOf s u := by
  unfold solveBucketH2h
  by_cases hlen : bucket.length > 1
  · rw [if_pos hlen]
    exact solveMetric_frame hnd _ rank bucket s hperm hbsub hu
  · rw [if_neg hlen]

lemma namesOf_solveBucketH2h {names : List String} (hnd : names.Nodup)
    (teams : List Team) (rank : Nat) (bucket : List String) (s : Standings)
    (hperm : namesOf s ~ names) (hbsub : ∀ t ∈ bucket, t ∈ names) :
    namesOf (solveBucketH2h teams rank bucket s) ~ names := by
  unfold solveBucketH2h
  by_cases hlen : bucket.length > 1
  · rw [if_pos hlen]
    exact namesOf_solveMetric hnd _ rank bucket s hperm hbsub
  · rw [if_neg hlen]
    exact hperm

lemma solveBucketH2h_range {names : List String} (hnd : names.Nodup)
    (teams : List Team) (rank : Nat) (bucket : List String) (s : Standings)
    (hperm : namesOf s ~ names) (hbsub : ∀ t ∈ bucket, t ∈ names)
    (hbnd : bucket.Nodup) {u : String} (hu : u ∈ bucket)
    (hr : rankOf s u = some rank) :
    ∃ k, rankOf (solveBucketH2h teams rank bucket s) u = some k ∧
      rank ≤ k ∧ k < rank + bucket.length := by
  unfold solveBucketH2h
  by_cases hlen : bucket.length > 1
  · rw [if_pos hlen]
    exact solveMetric_range hnd _ rank bucket s hperm hbsub hbnd hu hr
  · rw [if_neg hlen]
    have h1 : 1 ≤ bucket.length :=
      List.length_pos.mpr (fun he => by simp [he] at hu)
    exact ⟨rank, hr, le_refl _, by omega⟩

/-! ## The whole head-to-head pass keeps every team inside its
original bucket's rank window -/

lemma h2h_pass_fold_range {teams : List Team} {names : List String}
    {s₀ : Standings} (hnd : names.Nodup) (hs₀ : namesOf s₀ ~ names) :
    ∀ (l : List (Nat × List String)) (cur : Standings),
      (∀ b ∈ l, b ∈ s₀) → (namesOf l).Nodup → namesOf cur ~ names →
      (∀ r b, (r, b) ∈ s₀ → ∀ t ∈ b,
        ∃ k, rankOf cur t = some k ∧ r ≤ k ∧ k < r + b.length) →
      (∀ r b, (r, b) ∈ l → ∀ t ∈ b, rankOf cur t = some r) →
      ∀ r b, (r, b) ∈ s₀ → ∀ t ∈ b,
        ∃ k, rankOf (l.foldl
            (fun cur b => solveBucketH2h teams b.1 b.2 cur) cur) t = some k ∧
          r ≤ k ∧ k < r + b.length := by
  intro l
  induction l with
  | nil => exact fun cur _ _ _ hinv _ => hinv
  | cons b₀ rest ih =>
      intro cur hsup hlnd hperm hinv hfresh
      rw [List.foldl_cons]
      have hs₀nd : (namesOf s₀).Nodup := hs₀.nodup_iff.mpr hnd
      have hb₀sub : ∀ t ∈ b₀.2, t ∈ names := by
        intro t ht
        refine hs₀.mem_iff.mp ?_
        exact mem_namesOf_of_mem_bucket
          (show (b₀.1, b₀.2) ∈ s₀ by simpa using hsup b₀ (by simp)) ht
      rw [namesOf_cons, List.nodup_append] at hlnd
      have hperm' : namesOf (solveBucketH2h teams b₀.1 b₀.2 cur) ~ names :=
        namesOf_solveBucketH2h hnd teams b₀.1 b₀.2 cur hperm hb₀sub
      refine ih _ (fun c hc => hsup c (List.mem_cons_of_mem _ hc))
        hlnd.2.1 hperm' ?_ ?_
      · -- the range invariant is maintained
        intro r b hbmem t ht
        by_cases htb : t ∈ b₀.2
        · -- t's bucket is exactly b₀
          obtain ⟨hr, hb⟩ := bucket_unique hs₀nd hbmem
            (by simpa using hsup b₀ (by simp)) ht htb
          rw [hr, hb]
          exact solveBucketH2h_range hnd teams b₀.1 b₀.2 cur hperm hb₀sub
            hlnd.1 htb
            (hfresh b₀.1 b₀.2 (by simp) t htb)
        · obtain ⟨k, hk, hk1, hk2⟩ := hinv r b hbmem t ht
          exact ⟨k, by
            rw [solveBucketH2h_frame hnd teams b₀.1 b₀.2 cur hperm hb₀sub htb]
            exact hk, hk1, hk2⟩
      · -- unprocessed buckets keep their original ranks
        intro r b hbmem t ht
        have htb : t ∉ b₀.2 := fun hmem =>
          hlnd.2.2 hmem (mem_namesOf_of_mem_bucket hbmem ht)
        rw [solveBucketH2h_frame hnd teams b₀.1 b₀.2 cur hperm hb₀sub htb]
        exact hfresh r b (List.mem_cons_of_mem _ hbmem) t ht

/-! ## Geometry of the initial buckets -/

lemma msSpecRanks_rank_le {n : Nat} {gs : List ((Nat × Nat) × List String)}
    {r : Nat} {b : List String} (h : (r, b) ∈ msSpecRanks n gs) : n ≤ r := by
  induction gs generalizing n with
  | nil => simp [msSpecRanks] at h
  | cons g rest ih =>
      rw [msSpecRanks] at h
      rcases List.mem_cons.mp h with heq | hm
      · have : r = n := congrArg Prod.fst heq
        omega
      · have := ih hm
        omega

lemma msSpecRanks_pairwise (n : Nat) (gs : List ((Nat × Nat) × List String)) :
    List.Pairwise (fun x y : Nat × List String => x.1 + x.2.length ≤ y.1)
      (msSpecRanks n gs) := by
  induction gs generalizing n with
  | nil => exact List.Pairwise.nil
  | cons g rest ih =>
      rw [msSpecRanks]
      refine List.Pairwise.cons ?_ (ih (n + g.2.length))
      intro c hc
      have := msSpecRanks_rank_le hc
      simpa using this

lemma pairwise_mem_rel {R : α → α → Prop} :
    ∀ {l : List α}, List.Pairwise R l → ∀ {a b : α}, a ∈ l → b ∈ l →
      a = b ∨ R a b ∨ R b a := by
  intro l
  induction l with
  | nil => intro _ a b h; simp at h
  | cons c rest ih =>
      intro hpw a b ha hb
      rcases List.pairwise_cons.mp hpw with ⟨hc, hrest⟩
      rcases List.mem_cons.mp ha with ha1 | ha1
      · rcases List.mem_cons.mp hb with hb1 | hb1
        · exact Or.inl (ha1.trans hb1.symm)
        · exact Or.inr (Or.inl (by rw [ha1]; exact hc b hb1))
      · rcases List.mem_cons.mp hb with hb1 | hb1
        · exact Or.inr (Or.inr (by rw [hb1]; exact hc a ha1))
        · exact ih hrest ha1 hb1

/-- Separation of the initial buckets: a strictly higher bucket's rank
window ends before a strictly lower bucket's rank begins. -/
lemma leagueStandings_separated {teams : List Team} {rx ry : Nat}
    {bx bys : List String} (hx : (rx, bx) ∈ leagueStandings teams)
    (hy : (ry, bys) ∈ leagueStandings teams) (hlt : rx < ry) :
    rx + bx.length ≤ ry := by
  unfold leagueStandings at hx hy
  rw [make_standings_eq_spec] at hx hy
  rcases pairwise_mem_rel (msSpecRanks_pairwise 1 _) hx hy with heq | hR | hR
  · have : rx = ry := congrArg Prod.fst heq
    omega
  · exact hR
  · exfalso
    have hR' : ry + bys.length ≤ rx := hR
    omega

/-! ## C8 -/

/-- C8.  The head-to-head pass never changes a team's relative order
against teams outside its original tied bucket: whenever x and y start
in different buckets of the freshly built standings with x strictly
above y (numerically smaller rank), x is still strictly above y after
the pass completes.  (Each team stays inside its original bucket's rank
window, and distinct windows never overlap.) -/
theorem h2h_pass_preserves_cross_bucket_order (teams : List Team)
    (hnd : (teams.map Team.name).Nodup) {rx ry : Nat} {bx bys : List String}
    {x y : String} (hbx : (rx, bx) ∈ leagueStandings teams)
    (hby : (ry, bys) ∈ leagueStandings teams) (hx : x ∈ bx) (hy : y ∈ bys)
    (hlt : rx < ry) :
    ∃ kx ky,
      rankOf (solve_ties_through_head_to_heads teams
        (leagueStandings teams)) x = some kx ∧
      rankOf (solve_ties_through_head_to_heads teams
        (leagueStandings teams)) y = some ky ∧ kx < ky := by
  have hs₀ : namesOf (leagueStandings teams) ~ teams.map Team.name :=
    namesOf_leagueStandings teams
  have hs₀nd : (namesOf (leagueStandings teams)).Nodup := hs₀.nodup_iff.mpr hnd
  have hfresh : ∀ r b, (r, b) ∈ leagueStandings teams → ∀ t ∈ b,
      rankOf (leagueStandings teams) t = some r := by
    intro r b hbm t ht
    exact rankOf_eq_some_of_count_le_one
      (List.nodup_iff_count_le_one.mp hs₀nd t) hbm ht
  have hinv : ∀ r b, (r, b) ∈ leagueStandings teams → ∀ t ∈ b,
      ∃ k, rankOf (leagueStandings teams) t = some k ∧
        r ≤ k ∧ k < r + b.length := by
    intro r b hbm t ht
    refine ⟨r, hfresh r b hbm t ht, le_refl r, ?_⟩
    have hpos : 0 < b.length :=
      List.length_pos.mpr (fun he => by simp [he] at ht)
    omega
  have hmain := @h2h_pass_fold_range teams (teams.map Team.name)
    (leagueStandings teams) hnd hs₀ (leagueStandings teams)
    (leagueStandings teams) (fun b hb => hb) hs₀nd hs₀ hinv hfresh
  obtain ⟨kx, hkx, hkx1, hkx2⟩ := hmain rx bx hbx x hx
  obtain ⟨ky, hky, hky1, hky2⟩ := hmain ry bys hby y hy
  have hsep := leagueStandings_separated hbx hby hlt
  exact ⟨kx, ky, hkx, hky, by omega⟩

/-- Witness for C8 on `exTeams2`: Z (bucket at rank 1) stays strictly
above W (bucket at rank 4). -/
theorem h2h_pass_preserves_cross_bucket_order_witness :
    ∃ kx ky,
      rankOf (solve_ties_through_head_to_heads exTeams2
        (leagueStandings exTeams2)) "Z" = some kx ∧
      rankOf (solve_ties_through_head_to_heads exTeams2
        (leagueStandings exTeams2)) "W" = some ky ∧ kx < ky :=
  @h2h_pass_preserves_cross_bucket_order exTeams2 (by decide) 1 4 ["Z"] ["W"]
    "Z" "W" (by decide) (by decide) (by decide) (by decide) (by decide)

/-! ## A two-team bucket with a decisive head-to-head record -/

lemma teams_by_records_pair (X Y : String) {wX wY : Nat} (hne : wX ≠ wY) :
    teams_by_records [(X, wX), (Y, wY)] = [(wX, [X]), (wY, [Y])] := by
  simp [teams_by_records, addToGroups, hne]

lemma sortGroupsDesc_pair (X Y : String) {wX wY : Nat} (h : wY < wX) :
    sortGroupsDesc [(wX, [X]), (wY, [Y])] = [(wX, [X]), (wY, [Y])] := by
  unfold sortGroupsDesc
  simp only [List.foldl_cons, List.foldl_nil, insertGroupDesc]
  rw [if_neg (by omega)]

lemma applyPlacings_pair (rank : Nat) (X Y : String) (s : Standings) :
    applyPlacings rank [(0, [X]), (1, [Y])] s =
      set_standing_for_team Y (rank + 1) (remove_team_from_standings Y s) := by
  simp [applyPlacings]

/-- A bucket holding exactly the tied pair {X, Y} where X has strictly
more head-to-head wins: the pass leaves X in place and moves Y down one
rank. -/
lemma solveBucketH2h_pair {teams : List Team} {X Y : String} (rank : Nat)
    (hXY : X ≠ Y)
    (hgt : (lookupTeam teams Y).head_to_head_wins [lookupTeam teams X] <
      (lookupTeam teams X).head_to_head_wins [lookupTeam teams Y])
    {bucket : List String} (hb : bucket = [X, Y] ∨ bucket = [Y, X])
    (s : Standings) :
    solveBucketH2h teams rank bucket s =
      set_standing_for_team Y (rank + 1) (remove_team_from_standings Y s) := by
  have hYX : Y ≠ X := Ne.symm hXY
  have hne : (lookupTeam teams X).head_to_head_wins [lookupTeam teams Y] ≠
      (lookupTeam teams Y).head_to_head_wins [lookupTeam teams X] :=
    Nat.ne_of_gt hgt
  rcases hb with rfl | rfl
  · unfold solveBucketH2h
    rw [if_pos (by simp)]
    have hmap : [X, Y].map (fun tn =>
        (tn, (lookupTeam teams tn).head_to_head_wins
          (([X, Y].filter (fun o => o ≠ tn)).map (lookupTeam teams)))) =
        [(X, (lookupTeam teams X).head_to_head_wins [lookupTeam teams Y]),
         (Y, (lookupTeam teams Y).head_to_head_wins [lookupTeam teams X])] := by
      simp [hXY, hYX]
    rw [hmap]
    dsimp only
    rw [teams_by_records_pair X Y hne,
      place_teams_in_rankings_eq _ 0 (by
        intro g hg
        rcases List.mem_cons.mp hg with rfl | hg
        · simp
        · rcases List.mem_cons.mp hg with rfl | hg
          · simp
          · simp at hg),
      sortGroupsDesc_pair X Y hgt]
    show applyPlacings rank (ptirAux 0 _) s = _
    rw [show ptirAux 0 [((lookupTeam teams X).head_to_head_wins
        [lookupTeam teams Y], [X]),
        ((lookupTeam teams Y).head_to_head_wins [lookupTeam teams X], [Y])] =
        [(0, [X]), (1, [Y])] from by simp [ptirAux],
      applyPlacings_pair]
  · unfold solveBucketH2h
    rw [if_pos (by simp)]
    have hmap : [Y, X].map (fun tn =>
        (tn, (lookupTeam teams tn).head_to_head_wins
          (([Y, X].filter (fun o => o ≠ tn)).map (lookupTeam teams)))) =
        [(Y, (lookupTeam teams Y).head_to_head_wins [lookupTeam teams X]),
         (X, (lookupTeam teams X).head_to_head_wins [lookupTeam teams Y])] := by
      simp [hXY, hYX]
    rw [hmap]
    dsimp only
    rw [teams_by_records_pair Y X (Ne.symm hne)]
    have hsort : sortGroupsDesc
        [((lookupTeam teams Y).head_to_head_wins [lookupTeam teams X], [Y]),
         ((lookupTeam teams X).head_to_head_wins [lookupTeam teams Y], [X])] =
        [((lookupTeam teams X).head_to_head_wins [lookupTeam teams Y], [X]),
         ((lookupTeam teams Y).head_to_head_wins [lookupTeam teams X], [Y])] := by
      unfold sortGroupsDesc
      simp only [List.foldl_cons, List.foldl_nil, insertGroupDesc]
      rw [if_pos (by omega)]
    rw [place_teams_in_rankings_eq _ 0 (by
        intro g hg
        rcases List.mem_cons.mp hg with rfl | hg
        · simp
        · rcases List.mem_cons.mp hg with rfl | hg
          · simp
          · simp at hg),
      hsort]
    show applyPlacings rank (ptirAux 0 _) s = _
    rw [show ptirAux 0 [((lookupTeam teams X).head_to_head_wins
        [lookupTeam teams Y], [X]),
        ((lookupTeam teams Y).head_to_head_wins [lookupTeam teams X], [Y])] =
        [(0, [X]), (1, [Y])] from by simp [ptirAux],
      applyPlacings_pair]

/-! ## The whole pass on a league containing such a pair -/

lemma h2h_pass_fold_frame {teams : List Team} {names : List String}
    (hnd : names.Nodup) {u : String} :
    ∀ (l : List (Nat × List String)) (cur : Standings),
      namesOf cur ~ names → (∀ b ∈ l, ∀ t ∈ b.2, t ∈ names) →
      u ∉ namesOf l →
      rankOf (l.foldl (fun cur b => solveBucketH2h teams b.1 b.2 cur) cur) u =
        rankOf cur u := by
  intro l
  induction l with
  | nil => exact fun cur _ _ _ => rfl
  | cons b₀ rest ih =>
      intro cur hperm hsub hu
      rw [List.foldl_cons]
      have hb₀sub : ∀ t ∈ b₀.2, t ∈ names := fun t ht => hsub b₀ (by simp) t ht
      have hu₀ : u ∉ b₀.2 := fun hm => hu (by
        rw [namesOf_cons]
        exact List.mem_append.mpr (Or.inl hm))
      rw [ih _ (namesOf_solveBucketH2h hnd teams b₀.1 b₀.2 cur hperm hb₀sub)
          (fun c hc t ht => hsub c (List.mem_cons_of_mem _ hc) t ht)
          (fun hm => hu (by
            rw [namesOf_cons]
            exact List.mem_append.mpr (Or.inr hm))),
        solveBucketH2h_frame hnd teams b₀.1 b₀.2 cur hperm hb₀sub hu₀]

lemma h2h_pass_fold_two {teams : List Team} {names : List String}
    (hnd : names.Nodup) {X Y : String} {r : Nat} (hXY : X ≠ Y)
    (hgt : (lookupTeam teams Y).head_to_head_wins [lookupTeam teams X] <
      (lookupTeam teams X).head_to_head_wins [lookupTeam teams Y]) :
    ∀ (l : List (Nat × List String)) (cur : Standings),
      namesOf cur ~ names → (∀ b ∈ l, ∀ t ∈ b.2, t ∈ names) →
      (namesOf l).Nodup →
      ((r, [X, Y]) ∈ l ∨ (r, [Y, X]) ∈ l) →
      rankOf cur X = some r → rankOf cur Y = some r →
      rankOf (l.foldl
          (fun cur b => solveBucketH2h teams b.1 b.2 cur) cur) X = some r ∧
      rankOf (l.foldl
          (fun cur b => solveBucketH2h teams b.1 b.2 cur) cur) Y =
        some (r + 1) := by
  intro l
  induction l with
  | nil =>
      intro cur _ _ _ hmem _ _
      rcases hmem with h | h <;> simp at h
  | cons b₀ rest ih =>
      intro cur hperm hsub hlnd0 hmem hrX hrY
      rw [List.foldl_cons]
      have hb₀sub : ∀ t ∈ b₀.2, t ∈ names := fun t ht => hsub b₀ (by simp) t ht
      have hlnd := hlnd0
      rw [namesOf_cons, List.nodup_append] at hlnd
      have hXnames : X ∈ names := by
        rcases hmem with hm | hm
        · exact hsub (r, [X, Y]) hm X (by simp)
        · exact hsub (r, [Y, X]) hm X (by simp)
      have hYnames : Y ∈ names := by
        rcases hmem with hm | hm
        · exact hsub (r, [X, Y]) hm Y (by simp)
        · exact hsub (r, [Y, X]) hm Y (by simp)
      have hcntX : (namesOf cur).count X ≤ 1 := by
        rw [hperm.count_eq]
        exact List.nodup_iff_count_le_one.mp hnd X
      have hcntY : (namesOf cur).count Y ≤ 1 := by
        rw [hperm.count_eq]
        exact List.nodup_iff_count_le_one.mp hnd Y
      by_cases hcase : X ∈ b₀.2 ∨ Y ∈ b₀.2
      · -- the head bucket is the tied pair
        have hbval : b₀.1 = r ∧ (b₀.2 = [X, Y] ∨ b₀.2 = [Y, X]) := by
          rcases hmem with hm | hm <;>
            rcases List.mem_cons.mp hm with he | hrest
          · exact ⟨(congrArg Prod.fst he).symm,
              Or.inl (congrArg Prod.snd he).symm⟩
          · exfalso
            rcases hcase with hc | hc
            · exact hlnd.2.2 hc
                (mem_namesOf_of_mem_bucket hrest (by simp))
            · exact hlnd.2.2 hc
                (mem_namesOf_of_mem_bucket hrest (by simp))
          · exact ⟨(congrArg Prod.fst he).symm,
              Or.inr (congrArg Prod.snd he).symm⟩
          · exfalso
            rcases hcase with hc | hc
            · exact hlnd.2.2 hc
                (mem_namesOf_of_mem_bucket hrest (by simp))
            · exact hlnd.2.2 hc
                (mem_namesOf_of_mem_bucket hrest (by simp))
        have hstep : solveBucketH2h teams b₀.1 b₀.2 cur =
            set_standing_for_team Y (r + 1)
              (remove_team_from_standings Y cur) := by
          rw [hbval.1]
          exact solveBucketH2h_pair r hXY hgt hbval.2 cur
        have hXmem : X ∈ b₀.2 := by
          rcases hbval.2 with hb | hb <;> simp [hb]
        have hYmem : Y ∈ b₀.2 := by
          rcases hbval.2 with hb | hb <;> simp [hb]
        have hXrest : X ∉ namesOf rest := hlnd.2.2 hXmem
        have hYrest : Y ∉ namesOf rest := hlnd.2.2 hYmem
        have hperm' : namesOf (solveBucketH2h teams b₀.1 b₀.2 cur) ~ names :=
          namesOf_solveBucketH2h hnd teams b₀.1 b₀.2 cur hperm hb₀sub
      -- after the bucket: X still at r, Y at r + 1; the rest is frame
        have hXafter : rankOf (solveBucketH2h teams b₀.1 b₀.2 cur) X =
            some r := by
          rw [hstep, rankOf_move_ne _ hXY hcntX]
          exact hrX
        have hYafter : rankOf (solveBucketH2h teams b₀.1 b₀.2 cur) Y =
            some (r + 1) := by
          rw [hstep, rankOf_move_self _ hcntY]
        have hsubrest : ∀ c ∈ rest, ∀ t ∈ c.2, t ∈ names :=
          fun c hc t ht => hsub c (List.mem_cons_of_mem _ hc) t ht
        constructor
        · rw [h2h_pass_fold_frame hnd rest _ hperm' hsubrest hXrest]
          exact hXafter
        · rw [h2h_pass_fold_frame hnd rest _ hperm' hsubrest hYrest]
          exact hYafter
      · -- the head bucket holds neither team: frame, then recurse
        push_neg at hcase
        have hmem' : (r, [X, Y]) ∈ rest ∨ (r, [Y, X]) ∈ rest := by
          rcases hmem with hm | hm <;> rcases List.mem_cons.mp hm with he | hr'
          · exact absurd (by rw [← he]; simp : X ∈ b₀.2) hcase.1
          · exact Or.inl hr'
          · exact absurd (by rw [← he]; simp : X ∈ b₀.2) hcase.1
          · exact Or.inr hr'
        have hperm' : namesOf (solveBucketH2h teams b₀.1 b₀.2 cur) ~ names :=
          namesOf_solveBucketH2h hnd teams b₀.1 b₀.2 cur hperm hb₀sub
        refine ih _ hperm'
          (fun c hc t ht => hsub c (List.mem_cons_of_mem _ hc) t ht)
          hlnd.2.1 hmem' ?_ ?_
        · rw [solveBucketH2h_frame hnd teams b₀.1 b₀.2 cur hperm hb₀sub
            hcase.1]
          exact hrX
        · rw [solveBucketH2h_frame hnd teams b₀.1 b₀.2 cur hperm hb₀sub
            hcase.2]
          exact hrY

/-! ## C9 -/

/-- C9.  When X and Y have identical records and share a two-team rank
bucket, and X holds a 1–0 head-to-head record over Y, the head-to-head
pass leaves X at the bucket's rank and moves Y exactly one rank lower:
X places strictly above Y. -/
theorem h2h_winner_placed_above_on_two_team_tie (teams : List Team)
    (hnd : (teams.map Team.name).Nodup) {r : Nat} {X Y : String}
    (hXY : X ≠ Y)
    (hb : (r, [X, Y]) ∈ leagueStandings teams ∨
      (r, [Y, X]) ∈ leagueStandings teams)
    (hx1 : (lookupTeam teams X).head_to_head_wins [lookupTeam teams Y] = 1)
    (hy0 : (lookupTeam teams Y).head_to_head_wins [lookupTeam teams X] = 0) :
    rankOf (solve_ties_through_head_to_heads teams
      (leagueStandings teams)) X = some r ∧
    rankOf (solve_ties_through_head_to_heads teams
      (leagueStandings teams)) Y = some (r + 1) := by
  have hs₀ : namesOf (leagueStandings teams) ~ teams.map Team.name :=
    namesOf_leagueStandings teams
  have hs₀nd : (namesOf (leagueStandings teams)).Nodup := hs₀.nodup_iff.mpr hnd
  have hsub : ∀ b ∈ leagueStandings teams, ∀ t ∈ b.2,
      t ∈ teams.map Team.name := by
    intro b hbm t ht
    exact hs₀.mem_iff.mp
      (mem_namesOf_of_mem_bucket
        (show (b.1, b.2) ∈ leagueStandings teams by simpa using hbm) ht)
  have hgt : (lookupTeam teams Y).head_to_head_wins [lookupTeam teams X] <
      (lookupTeam teams X).head_to_head_wins [lookupTeam teams Y] := by
    rw [hx1, hy0]
    omega
  have hrX : rankOf (leagueStandings teams) X = some r := by
    rcases hb with hm | hm
    · exact rankOf_eq_some_of_count_le_one
        (List.nodup_iff_count_le_one.mp hs₀nd X) hm (by simp)
    · exact rankOf_eq_some_of_count_le_one
        (List.nodup_iff_count_le_one.mp hs₀nd X) hm (by simp)
  have hrY : rankOf (leagueStandings teams) Y = some r := by
    rcases hb with hm | hm
    · exact rankOf_eq_some_of_count_le_one
        (List.nodup_iff_count_le_one.mp hs₀nd Y) hm (by simp)
    · exact rankOf_eq_some_of_count_le_one
        (List.nodup_iff_count_le_one.mp hs₀nd Y) hm (by simp)
  exact h2h_pass_fold_two hnd hXY hgt (leagueStandings teams)
    (leagueStandings teams) hs₀ hsub hs₀nd hb hrX hrY

/-- Witness for C9 on `exTeams2`: X and Y are tied 1–1 at rank 2, X won
their single meeting, and the pass puts X at rank 2 and Y at rank 3. -/
theorem h2h_winner_placed_above_on_two_team_tie_witness :
    rankOf (solve_ties_through_head_to_heads exTeams2
      (leagueStandings exTeams2)) "X" = some 2 ∧
    rankOf (solve_ties_through_head_to_heads exTeams2
      (leagueStandings exTeams2)) "Y" = some 3 :=
  @h2h_winner_placed_above_on_two_team_tie exTeams2 (by decide) 2 "X" "Y"
    (by decide) (Or.inl (by decide)) (by decide) (by decide)

/-! ## C10 -/

/-- C10.  With a present result of equal scores `Match.winner` returns
the second team and `Match.loser` the first — the program never reports
a draw; and `winner`/`loser` are `none` exactly when `result` is absent. -/
theorem winner_loser_equal_scores_no_draw :
    (∀ (m : Match) (a b : Int), m.result = some (a, b) → a = b →
        m.winner = some m.teams.2 ∧ m.loser = some m.teams.1) ∧
    (∀ m : Match, (m.winner = none ↔ m.result = none) ∧
        (m.loser = none ↔ m.result = none)) := by
  constructor
  · intro m a b hres hab
    subst hab
    simp [Match.winner, Match.loser, hres]
  · intro m
    rcases hres : m.result with _ | ⟨a, b⟩
    · simp [Match.winner, Match.loser, hres]
    · simp only [Match.winner, Match.loser, hres]
      by_cases hab : a > b <;> simp [hab]

/-- Witness for C10 at a concrete drawn-score match. -/
theorem winner_loser_equal_scores_no_draw_witness :
    (mkMatch "A" "B" 1 (2, 2)).winner = some "B" ∧
      (mkMatch "A" "B" 1 (2, 2)).loser = some "A" :=
  winner_loser_equal_scores_no_draw.1 (mkMatch "A" "B" 1 (2, 2)) 2 2 rfl rfl

/-! ## C7 -/

/-- C7 counterexample.  A record whose `teams` array has a single
element, whose `week` is 0 and whose `result` has three entries — all
three malformations named by the claim — is accepted by
`get_matches_from_json`; ingestion does not reject it and the engine
would start on it. -/
theorem ingestion_accepts_malformed_record :
    get_matches_from_json [⟨some ["A"], some 0, some (some [1, 0, 5])⟩] =
      Except.ok [⟨["A"], 0, some [1, 0, 5]⟩] := rfl

/-- C7 amended.  Ingestion fails (with the first record's `KeyError`)
exactly when some record lacks one of the keys `teams`, `week`,
`result`; no value is validated, so records with malformed teams, weeks
or results are accepted whenever all three keys are present. -/
theorem ingestion_fails_iff_missing_key (records : List RawMatch) :
    (get_matches_from_json records).isOk = true ↔
      ∀ r ∈ records, r.teams.isSome ∧ r.week.isSome ∧ r.result.isSome := by
  induction records with
  | nil => simp [get_matches_from_json, Except.isOk, Except.toBool]
  | cons r rest ih =>
      rcases hts : r.teams with _ | ts <;>
        rcases hw : r.week with _ | w <;>
        rcases hres : r.result with _ | res <;>
        simp [get_matches_from_json, hts, hw, hres, Except.isOk, Except.toBool, ← ih]
      cases get_matches_from_json rest <;>
        simp [Except.map, Except.isOk, Except.toBool]

/-- Witness for C7's amended statement on a well-keyed record. -/
theorem ingestion_fails_iff_missing_key_witness :
    (get_matches_from_json [⟨some ["A", "B"], some 1, some none⟩]).isOk = true :=
  (ingestion_fails_iff_missing_key [⟨some ["A", "B"], some 1, some none⟩]).mpr
    (by decide)

/-! ## C2 -/

/-- C2.  In `exTeams` the teams A, B, C are bucketed together at rank 1
and their head-to-head wins inside the bucket are A=2, B=1, C=1.  The
claim requires the mutually tied B and C to stay bucketed together at
one common offset; instead the pass moves B alone to rank 2 and leaves C
at rank 1 next to A (whose head-to-head record is strictly better),
because `place_teams_in_rankings` only inserts the first team of each
win group.  This evaluation exhibits the divergence. -/
theorem h2h_pass_splits_mutually_tied_teams :
    leagueStandings exTeams = [(1, ["A", "B", "C"]), (4, ["D", "E"])] ∧
    (lookupTeam exTeams "A").head_to_head_wins
        ((["A", "B", "C"].filter (fun o => o ≠ "A")).map (lookupTeam exTeams)) = 2 ∧
    (lookupTeam exTeams "B").head_to_head_wins
        ((["A", "B", "C"].filter (fun o => o ≠ "B")).map (lookupTeam exTeams)) = 1 ∧
    (lookupTeam exTeams "C").head_to_head_wins
        ((["A", "B", "C"].filter (fun o => o ≠ "C")).map (lookupTeam exTeams)) = 1 ∧
    solve_ties_through_head_to_heads exTeams (leagueStandings exTeams) =
      [(1, ["A", "C"]), (2, ["B"]), (4, ["D", "E"])] := by
  refine ⟨by decide, by decide, by decide, by decide, by decide⟩

/-! ## C4 -/

/-- C4 counterexample.  Running `make_tiebreaker` a second time on the
standings the first run produced changes them: on `exTeams` the first
run ends with `{1: [A, C], 2: [B], 4: [D, E]}` and the second run moves
C below B, giving `{1: [A], 2: [B, C], 4: [D, E]}` — the resolver is not
a fixed point. -/
theorem make_tiebreaker_not_idempotent :
    make_tiebreaker exTeams (leagueStandings exTeams) =
        [(1, ["A", "C"]), (2, ["B"]), (4, ["D", "E"])] ∧
    make_tiebreaker exTeams (make_tiebreaker exTeams (leagueStandings exTeams)) =
        [(1, ["A"]), (2, ["B", "C"]), (4, ["D", "E"])] ∧
    make_tiebreaker exTeams (make_tiebreaker exTeams (leagueStandings exTeams)) ≠
      make_tiebreaker exTeams (leagueStandings exTeams) := by
  refine ⟨by decide, by decide, by decide⟩

/-- C4 amended.  The resolver is a fixed point exactly in the tie-free
case: whenever a standings object has no bucket with more than one team
— in particular when a first resolver run has resolved every tie —
running `make_tiebreaker` on it leaves it unchanged.  (When multi-team
buckets survive the first run, a second run may mutate the standings,
as `make_tiebreaker_not_idempotent` shows.) -/
theorem make_tiebreaker_fixed_point_when_ties_resolved (teams : List Team)
    (s : Standings) (h : ∀ b ∈ s, b.2.length ≤ 1) :
    make_tiebreaker teams s = s := by
  have h' : ∀ b ∈ s, ¬ b.2.length > 1 := fun b hb => by
    have := h b hb; omega
  unfold make_tiebreaker solve_ties_through_head_to_heads
    solve_ties_through_wins_in_second_half
  rw [foldl_solveBucketH2h_of_short teams s s h',
    foldl_solveBucketSecondHalf_of_short teams s s h']

/-- Witness for C4's amended statement on concrete tie-free standings. -/
theorem make_tiebreaker_fixed_point_when_ties_resolved_witness :
    make_tiebreaker exTeams2 [(1, ["Z"]), (2, ["X"]), (3, ["Y"]), (4, ["W"])] =
      [(1, ["Z"]), (2, ["X"]), (3, ["Y"]), (4, ["W"])] :=
  make_tiebreaker_fixed_point_when_ties_resolved exTeams2 _ (by decide)

/-! ## C6 -/

/-- C6.  The aggregator's drain loop (`_cumulate_results`) exits the
first time it observes an empty queue, so it consumes exactly the
results present at that moment.  For `tinyMs` (one unfinished match, so
2^1 = 2 scenarios) a drain that begins after only the first worker's
result reached the queue aggregates a total of 1 for team A instead of
the 2 the claim demands, and a drain racing ahead of both workers
aggregates nothing at all; only full delivery yields 2. -/
theorem cumulate_results_stops_on_empty_queue :
    sumCountsFor (cumulate_results ((scenarioResults tinyMs).take 1)) "A" = 1 ∧
    cumulate_results ([] : List Agg) = [] ∧
    sumCountsFor (cumulate_results (scenarioResults tinyMs)) "A" = 2 ∧
    (scenarioResults tinyMs).length = 2 ^ 1 := by
  refine ⟨by decide, by decide, by decide, by decide⟩

end LeagueProb
